import Mathlib

/-!
Verification of the fqfilter record-filtering tool.

The development shallowly embeds the program's core: the name-index
construction, the synchronized multi-stream filter loop of `main`
(header validation, per-record inclusion decision, per-stream and
tabular output, included/excluded counters, the match-limit check),
and the startup sequence (configuration checks and the order in which
input/output handles are opened).  Input streams are lists of text
lines; I/O sinks are modelled as the lists of lines written to them.
Resource failures (unopenable files, failing writes) are outside the
model: opens and writes are assumed to succeed.
-/

/-- Command-line configuration, mirroring the `Args` struct:
`-invert`, `-tab`, `-short-name`, `-reads`, `-out`, `-limit`. -/
structure CliArgs where
  invert : Bool := false
  tab : Bool := false
  shortName : Bool := false
  reads : String := ""
  out : String := ""
  limit : Int := 0
deriving Repr, DecidableEq

/-- One 4-line fastq record: header, sequence, separator, quality. -/
structure FqRec where
  hdr : String
  seq : String
  plus : String
  qual : String
deriving Repr, DecidableEq

/-- The four raw lines of a record, in file order. -/
def recLines (r : FqRec) : List String :=
  [r.hdr, r.seq, r.plus, r.qual]

/-- One synchronized input record: stream 0's record paired with the
records of the secondary streams for the same position. -/
abbrev Row := FqRec × List FqRec

/-- Fatal conditions of the filter loop: a header line without the `@`
sentinel (reported with its line position and content), a secondary
stream exhausted while stream 0 still has lines (reported with the
stream index), and the runtime panic of `strings.Fields(name)[0]`
when a name has no whitespace-delimited token. -/
inductive EngErr where
  | formatError (lineNum : Nat) (line : String)
  | desync (i : Nat)
  | panicEmptyName
deriving Repr, DecidableEq

/-- The mutable state of `main`'s filter loop: the `enable` flag, the
current record `name`, the per-stream sequence buffers, the global
line counter, the two counters, and the data written so far to the
per-stream sinks and to the tabular destination. -/
structure EngineState where
  enable : Bool
  name : String
  sequences : List String
  lineNum : Nat
  included : Nat
  excluded : Nat
  outputs : List (List String)
  tabLines : List String
deriving Repr, DecidableEq

/-- How a run of the loop ended: stream-0 end of input (`return nil`),
the match-limit early stop (`reached limit`), or a fatal error. -/
inductive RunTerm where
  | eof
  | limit
  | fail (e : EngErr)
deriving Repr, DecidableEq

/-- Did the loop end in a fatal error? -/
def RunTerm.isFail : RunTerm → Bool
  | .fail _ => true
  | _ => false

/-- Final loop state together with the way the loop terminated. -/
structure RunResult where
  st : EngineState
  term : RunTerm
deriving Repr, DecidableEq

/-- Result of one pass over the secondary streams at a fixed line
position: the updated state and the remaining tails, or a fatal error
together with the state at the moment of failure. -/
inductive InnerRes where
  | okRes (st : EngineState) (tails : List (List String))
  | errRes (e : EngErr) (st : EngineState)
deriving Repr, DecidableEq

/-- Model of `strings.HasPrefix(line, "@")`: the first character is
the record-header sentinel (the sentinel is a single byte, so byte
and character comparison coincide). -/
def hasSentinel (line : String) : Bool :=
  match line.data with
  | [] => false
  | c :: _ => c == '@'

/-- Model of `line[1:len(line)]` under the sentinel guard: the line
without its leading (single-byte) sentinel character. -/
def strTail (s : String) : String :=
  ⟨s.data.drop 1⟩

/-- First whitespace-delimited token of a string, if any: the model of
`strings.Fields(s)[0]`, which panics when the result is `none`. -/
def firstField (s : String) : Option String :=
  let rest := s.data.dropWhile Char.isWhitespace
  if rest = [] then none else some ⟨rest.takeWhile (fun c => !c.isWhitespace)⟩

/-- A name-list entry as inserted into the filter map: verbatim, or
its first token in short-name mode (`""` standing for the panic case,
which callers exclude). -/
def reduceName (sn : Bool) (l : String) : String :=
  if sn then (firstField l).getD "" else l

/-- Building the `filter` map from the scanned lines of the reads
list: each line is inserted (short-name reduced when enabled); a line
with no token under short-name mode panics. The map is represented by
its insertion list, membership being `List.contains`. -/
def buildFilter (sn : Bool) : List String → Except EngErr (List String)
  | [] => .ok []
  | l :: ls =>
    if sn then
      match firstField l with
      | none => .error .panicEmptyName
      | some t =>
        match buildFilter sn ls with
        | .error e => .error e
        | .ok ns => .ok (t :: ns)
    else
      match buildFilter sn ls with
      | .error e => .error e
      | .ok ns => .ok (l :: ns)

/-- Name extraction from a header line already known to start with
`@`: `line[1:]`, short-name reduced when enabled; fails with the
panic when short-name mode finds no token. -/
def nameOf (sn : Bool) (line : String) : Except EngErr String :=
  if sn then
    match firstField (strTail line) with
    | none => .error .panicEmptyName
    | some t => .ok t
  else .ok (strTail line)

/-- The name a well-formed header line yields: the line stripped of
its sentinel, reduced to the first token in short-name mode. -/
def lineName (sn : Bool) (line : String) : String :=
  if sn then (firstField (strTail line)).getD "" else strTail line

/-- The record name a well-formed header yields. -/
def recName (sn : Bool) (r : FqRec) : String :=
  lineName sn r.hdr

/-- The inclusion decision for an extracted name: membership in the
filter map, flipped under `-invert`. -/
def decOf (cfg : CliArgs) (filter : List String) (nm : String) : Bool :=
  if cfg.invert then !(filter.contains nm) else filter.contains nm

/-- The tabular output line: the name followed by each buffered
sequence, tab-separated. -/
def tabJoin (nm : String) (seqs : List String) : String :=
  seqs.foldl (fun acc s => acc ++ "\t" ++ s) nm

/-- Append one line to the sink of stream `i`. -/
def writeTo (outs : List (List String)) (i : Nat) (line : String) :
    List (List String) :=
  outs.set i (outs.getD i [] ++ [line])

/-- Header-position processing (`line_num % 4 == 0`): the sentinel
check for every stream, and for stream 0 the name extraction and the
inclusion decision. -/
def headerStep (cfg : CliArgs) (filter : List String) (i : Nat)
    (line : String) (st : EngineState) : Except EngErr EngineState :=
  if hasSentinel line then
    if i = 0 then
      match nameOf cfg.shortName line with
      | .error e => .error e
      | .ok nm => .ok { st with name := nm, enable := decOf cfg filter nm }
    else .ok st
  else .error (.formatError st.lineNum line)

/-- Sequence-position processing (`line_num % 4 == 1`): buffer the
line; on stream 0 bump the included or excluded counter. -/
def seqStep (i : Nat) (line : String) (st : EngineState) : EngineState :=
  let st := { st with sequences := st.sequences.set i line }
  if i = 0 then
    if st.enable then { st with included := st.included + 1 }
    else { st with excluded := st.excluded + 1 }
  else st

/-- Emission: for an enabled record, either the tabular line (once,
when the last stream's sequence line is read) or the raw line to the
stream's own sink. -/
def emitStep (cfg : CliArgs) (n : Nat) (i : Nat) (line : String)
    (st : EngineState) : EngineState :=
  if st.enable then
    if cfg.tab then
      if i + 1 = n ∧ st.lineNum % 4 = 1 then
        { st with tabLines := st.tabLines ++ [tabJoin st.name st.sequences] }
      else st
    else { st with outputs := writeTo st.outputs i line }
  else st

/-- The sequence-position and emission parts of the loop body, run
after the header check has passed (or been skipped). -/
def seqEmit (cfg : CliArgs) (n : Nat) (i : Nat) (line : String)
    (st : EngineState) : EngineState :=
  emitStep cfg n i line (if st.lineNum % 4 = 1 then seqStep i line st else st)

/-- The effect of one full pass of the secondary-stream loop on the
state, one `seqEmit` per stream: the closed form of `innerOthers` on
streams that all produce a processable line. -/
def othersPass (cfg : CliArgs) (n : Nat) : Nat → List String →
    EngineState → EngineState
  | _, [], st => st
  | i, h :: hs, st => othersPass cfg n (i + 1) hs (seqEmit cfg n i h st)

/-- Advancing the shared line counter by one, as the loop does after
all streams have been read for a position. -/
def bump (st : EngineState) : EngineState :=
  { st with lineNum := st.lineNum + 1 }

/-- The state change of one whole loop iteration (one line position):
stream 0's line, then every secondary stream's line, then the counter
advance. -/
def rowPass (cfg : CliArgs) (n : Nat) (l0 : String) (heads : List String)
    (st : EngineState) : EngineState :=
  bump (othersPass cfg n 1 heads (seqEmit cfg n 0 l0 st))

/-- The state change of one whole well-formed record (four loop
iterations): the header iteration installs the record's name and
inclusion decision, then the sequence, separator and quality
iterations follow. -/
def rowAdvance (cfg : CliArgs) (n : Nat) (filter : List String) (row : Row)
    (st : EngineState) : EngineState :=
  rowPass cfg n row.1.qual (row.2.map FqRec.qual)
    (rowPass cfg n row.1.plus (row.2.map FqRec.plus)
      (rowPass cfg n row.1.seq (row.2.map FqRec.seq)
        (rowPass cfg n row.1.hdr (row.2.map FqRec.hdr)
          { st with
              name := lineName cfg.shortName row.1.hdr,
              enable := decOf cfg filter (lineName cfg.shortName row.1.hdr) })))

/-- Processing of one scanned line of stream `i` at the current line
position, in the order of the loop body: header check and decision,
sequence buffering and counting, then emission. -/
def processLine (cfg : CliArgs) (n : Nat) (filter : List String) (i : Nat)
    (line : String) (st : EngineState) : Except EngErr EngineState :=
  if st.lineNum % 4 = 0 then
    match headerStep cfg filter i line st with
    | .error e => .error e
    | .ok st1 => .ok (seqEmit cfg n i line st1)
  else .ok (seqEmit cfg n i line st)

/-- One pass over the secondary streams (indices `i ≥ 1`) at the
current line position: each must produce a line (else the
desynchronization error naming the stream), which is then processed;
errors abort immediately, leaving the state as written so far. -/
def innerOthers (cfg : CliArgs) (n : Nat) (filter : List String) :
    Nat → List (List String) → EngineState → InnerRes
  | _, [], st => .okRes st []
  | i, [] :: _, st => .errRes (.desync i) st
  | i, (line :: tl) :: rest, st =>
    match processLine cfg n filter i line st with
    | .error e => .errRes e st
    | .ok st1 =>
      match innerOthers cfg n filter (i + 1) rest st1 with
      | .errRes e st2 => .errRes e st2
      | .okRes st2 tails => .okRes st2 (tl :: tails)

/-- The synchronized filter loop of `main`: at each line position,
stream 0 is read (its exhaustion terminates the loop successfully),
then every secondary stream; then the line counter advances and the
match-limit check runs (`Limit > 0 && included >= Limit`). -/
def runLoop (cfg : CliArgs) (n : Nat) (filter : List String) :
    List String → List (List String) → EngineState → RunResult
  | [], _, st => ⟨st, .eof⟩
  | l0 :: r0, others, st =>
    match processLine cfg n filter 0 l0 st with
    | .error e => ⟨st, .fail e⟩
    | .ok st1 =>
      match innerOthers cfg n filter 1 others st1 with
      | .errRes e st2 => ⟨st2, .fail e⟩
      | .okRes st2 tails =>
        let st3 := { st2 with lineNum := st2.lineNum + 1 }
        if 0 < cfg.limit ∧ cfg.limit ≤ (st3.included : Int) then
          ⟨st3, .limit⟩
        else runLoop cfg n filter r0 tails st3

/-- The loop's initial state: `enable` starts at the invert flag, the
buffers are the zero values of `make([]string, len(fq))`, counters at
zero, all sinks empty. -/
def initState (n : Nat) (invert : Bool) : EngineState :=
  { enable := invert, name := "", sequences := List.replicate n "",
    lineNum := 0, included := 0, excluded := 0,
    outputs := List.replicate n [], tabLines := [] }

/-- A whole filtering pass over stream 0 and the secondary streams
(`n = len(fq)` is `1 +` the number of secondary streams). -/
def runEngine (cfg : CliArgs) (filter : List String) (s0 : List String)
    (others : List (List String)) : RunResult :=
  runLoop cfg (1 + others.length) filter s0 others
    (initState (1 + others.length) cfg.invert)

/-- Stream 0 of a record-aligned input, as raw lines. -/
def rowsS0 (rows : List Row) : List String :=
  (rows.map (fun row => recLines row.1)).flatten

/-- The `m` secondary streams of a record-aligned input, as raw
lines.  Each row contributes one record to each secondary stream. -/
def buildOthers (m : Nat) : List Row → List (List String)
  | [] => List.replicate m []
  | row :: rows =>
    List.zipWith (fun r t => recLines r ++ t) row.2 (buildOthers m rows)

/-- The rows whose stream-0 header passes the inclusion decision. -/
def selRows (cfg : CliArgs) (filter : List String) (rows : List Row) :
    List Row :=
  rows.filter (fun row => decOf cfg filter (recName cfg.shortName row.1))

/-- Per-stream concatenation of the full 4-line records of the given
rows, over `n` sinks: entry 0 is stream 0's lines, entry `j+1` is
secondary stream `j`'s lines. -/
def streamCatFrom (n : Nat) : List Row → List (List String)
  | [] => List.replicate n []
  | row :: rows =>
    List.zipWith (fun r t => recLines r ++ t) (row.1 :: row.2)
      (streamCatFrom n rows)

/-- The tabular line a record-aligned row produces when included:
the stream-0 name followed by every stream's sequence line. -/
def rowTabLine (sn : Bool) (row : Row) : String :=
  tabJoin (recName sn row.1) (row.1.seq :: row.2.map (fun r => r.seq))

/-- Well-formedness of one row for a pass with `m` secondary streams:
every header carries the sentinel, the stream-0 name is extractable
in short-name mode, and the row spans all secondary streams. -/
abbrev wfRow (sn : Bool) (m : Nat) (row : Row) : Prop :=
  hasSentinel row.1.hdr = true ∧
    (sn = true → (firstField (strTail row.1.hdr)).isSome = true) ∧
    (∀ r ∈ row.2, hasSentinel r.hdr = true) ∧
    row.2.length = m

/-- The state after one full well-formed record has been processed:
the name and decision from stream 0's header, all sequence buffers
refreshed, the line counter advanced by 4, one counter bumped, and
either every stream's sink extended by its 4 record lines or one
tabular line appended. -/
def recStepState (cfg : CliArgs) (filter : List String) (row : Row)
    (st : EngineState) : EngineState :=
  let nm := recName cfg.shortName row.1
  let e := decOf cfg filter nm
  { st with
    name := nm
    enable := e
    sequences := row.1.seq :: row.2.map (fun r => r.seq)
    lineNum := st.lineNum + 4
    included := st.included + (if e then 1 else 0)
    excluded := st.excluded + (if e then 0 else 1)
    outputs :=
      if e && !cfg.tab then
        List.zipWith (fun o r => o ++ recLines r) st.outputs
          (row.1 :: row.2)
      else st.outputs
    tabLines :=
      st.tabLines ++
        (if e && cfg.tab then
          [tabJoin nm (row.1.seq :: row.2.map (fun r => r.seq))]
        else []) }

/-- Iterated `List.set` along consecutive indices. -/
def setAll (l : List String) : Nat → List String → List String
  | _, [] => l
  | i, h :: hs => setAll (l.set i h) (i + 1) hs

/-- Iterated `writeTo` along consecutive stream indices. -/
def appendEach (outs : List (List String)) : Nat → List String →
    List (List String)
  | _, [] => outs
  | i, h :: hs => appendEach (writeTo outs i h) (i + 1) hs

/-- An input source, as `AmbiReader.Open` resolves it: standard input
when the name is empty, otherwise the named file. -/
inductive Source where
  | stdin
  | file (fn : String)
deriving Repr, DecidableEq

/-- The filename actually passed to `AmbiReader.Open` for the reads
list: the literal name `stdin` is rewritten to the empty name. -/
def resolveReadsName (fn : String) : String :=
  if fn = "stdin" then "" else fn

/-- Model of `AmbiReader.Open`: an empty filename means standard
input. -/
def ambiOpenSource (fn : String) : Source :=
  if fn = "" then .stdin else .file fn

/-- Where the reads list is read from, given the `-reads` value. -/
def readsSourceOf (reads : String) : Source :=
  ambiOpenSource (resolveReadsName reads)

/-- Observable startup events of `main` before the filter loop:
fatal configuration reports and the opening of input, output and
reads-list handles. -/
inductive StartEvent where
  | fatalConfig (msg : String)
  | openInput (fn : String)
  | openOutput (fn : String)
  | openReads (fn : String)
deriving Repr, DecidableEq

/-- The output filename for stream `i` (0-based) under an output
name `out`: `out.fq.gz` for a single stream, `out_<i+1>.fq.gz` for
several. -/
def outFileName (out : String) (single : Bool) (i : Nat) : String :=
  if single then out ++ ".fq.gz" else out ++ "_" ++ toString (i + 1) ++ ".fq.gz"

/-- The startup sequence of `main` in program order, stopping at the
first fatal report: the reads-list and input-count checks, the
opening of every input, the tabular/output-name compatibility check,
the opening of the per-stream outputs (none when writing to standard
output), and the opening of the reads list.  Opens are assumed to
succeed (resource errors are outside the model). -/
def startupTrace (a : CliArgs) (fq : List String) : List StartEvent :=
  if a.reads = "" then
    [.fatalConfig "Must provide -reads <file> argument"]
  else if fq.length = 0 then
    [.fatalConfig "Must specify at least one fastq file"]
  else
    fq.map .openInput ++
      (if a.tab then
        (if a.out ≠ "" then
          [.fatalConfig "Tabular output only supports writing to stdout"]
        else [.openReads (resolveReadsName a.reads)])
      else
        (if a.out = "" then []
         else (List.range fq.length).map
           (fun i => .openOutput (outFileName a.out (fq.length = 1) i))) ++
          [.openReads (resolveReadsName a.reads)])

/-- Does the event open a handle? -/
def isOpenEvent : StartEvent → Bool
  | .openInput _ => true
  | .openOutput _ => true
  | .openReads _ => true
  | .fatalConfig _ => false

/-- Is the event a fatal configuration report? -/
def isConfigFatal : StartEvent → Bool
  | .fatalConfig _ => true
  | _ => false

/-! ## Name-index lemmas -/

theorem buildFilter_ok (sn : Bool) (lines : List String)
    (h : ∀ l ∈ lines, sn = true → (firstField l).isSome = true) :
    buildFilter sn lines = Except.ok (lines.map (reduceName sn)) := by
  induction lines with
  | nil => cases sn <;> simp [buildFilter]
  | cons l ls ih =>
    have hrest : ∀ x ∈ ls, sn = true → (firstField x).isSome = true :=
      fun x hx => h x (by simp [hx])
    cases sn with
    | false => simp [buildFilter, ih hrest, reduceName]
    | true =>
      have hl : (firstField l).isSome = true := h l (by simp) rfl
      obtain ⟨t, ht⟩ := Option.isSome_iff_exists.mp hl
      simp [buildFilter, ht, ih hrest, reduceName]

/-! ## Claims C9 and C10 -/

/-- Claim C9 (amended): for every name-list input in which, when
short-name mode is enabled, every line has at least one
whitespace-delimited token, the NameSet is exactly the list of
(possibly short-named) identifiers, and membership in it is
membership in that identifier set (duplicates collapsed by the
lookup). A token-less line under short-name mode crashes the index
construction instead (see the counterexample). -/
theorem c9_nameset_exact (sn : Bool) (lines : List String) (x : String)
    (h : ∀ l ∈ lines, sn = true → (firstField l).isSome = true) :
    buildFilter sn lines = Except.ok (lines.map (reduceName sn)) ∧
      ((lines.map (reduceName sn)).contains x = true ↔
        x ∈ lines.map (reduceName sn)) :=
  ⟨buildFilter_ok sn lines h, List.elem_iff⟩

/-- Witness for C9: a concrete three-line reads list under short-name
mode, with a duplicate short name. -/
theorem c9_nameset_exact_witness :
    buildFilter true ["read1 x", "read1 y", "r2"] =
      Except.ok (["read1 x", "read1 y", "r2"].map (reduceName true)) ∧
      ((["read1 x", "read1 y", "r2"].map (reduceName true)).contains "read1" = true ↔
        "read1" ∈ ["read1 x", "read1 y", "r2"].map (reduceName true)) :=
  c9_nameset_exact true ["read1 x", "read1 y", "r2"] "read1" (by decide)

/-- Counterexample for C9 as stated: with short-name mode enabled, a
whitespace-only name-list line makes `strings.Fields(name)[0]` panic,
so no NameSet is produced at all for this input. -/
theorem c9_counterexample :
    buildFilter true ["  "] = Except.error EngErr.panicEmptyName := rfl

/-- Claim C10: a `-reads` value of exactly `stdin` reads the name
list from standard input; every other non-empty value opens the named
file. -/
theorem c10_reads_stdin (fn : String) (h1 : fn ≠ "") (h2 : fn ≠ "stdin") :
    readsSourceOf "stdin" = Source.stdin ∧ readsSourceOf fn = Source.file fn := by
  constructor
  · decide
  · simp [readsSourceOf, resolveReadsName, ambiOpenSource, h1, h2]

/-- Witness for C10 at the path `reads.txt`. -/
theorem c10_reads_stdin_witness :
    readsSourceOf "stdin" = Source.stdin ∧
      readsSourceOf "reads.txt" = Source.file "reads.txt" :=
  c10_reads_stdin "reads.txt" (by decide) (by decide)

/-! ## Claim C8: startup order of configuration checks and opens -/

/-- Counterexample for C8 as stated: with `-tab` and a non-empty
`-out`, the incompatibility is a configuration error, yet the trace
opens the input stream first and only then reports it — so not every
configuration error is reported before a stream is opened. -/
theorem c8_counterexample :
    startupTrace { reads := "r", tab := true, out := "p" } ["a.fq"] =
      [StartEvent.openInput "a.fq",
       StartEvent.fatalConfig "Tabular output only supports writing to stdout"] ∧
      isOpenEvent ((startupTrace { reads := "r", tab := true, out := "p" }
        ["a.fq"]).getD 0 (StartEvent.fatalConfig "")) = true ∧
      isConfigFatal ((startupTrace { reads := "r", tab := true, out := "p" }
        ["a.fq"]).getD 1 (StartEvent.fatalConfig "")) = true :=
  ⟨rfl, rfl, rfl⟩

/-- Claim C8 (amended): the missing-reads-list and no-input-stream
errors are reported before anything is opened, but the tabular/output
incompatibility is reported only after every input stream has been
opened — though still before any output or the reads list is
opened. -/
theorem c8_config_check_order (a : CliArgs) (fq : List String) :
    (a.reads = "" →
      startupTrace a fq =
        [.fatalConfig "Must provide -reads <file> argument"]) ∧
    (a.reads ≠ "" → fq.length = 0 →
      startupTrace a fq =
        [.fatalConfig "Must specify at least one fastq file"]) ∧
    (a.reads ≠ "" → fq.length ≠ 0 → a.tab = true → a.out ≠ "" →
      startupTrace a fq =
        fq.map StartEvent.openInput ++
          [.fatalConfig "Tabular output only supports writing to stdout"]) := by
  refine ⟨fun h1 => ?_, fun h1 h2 => ?_, fun h1 h2 h3 h4 => ?_⟩
  · simp [startupTrace, h1]
  · simp [startupTrace, h1, h2]
  · simp [startupTrace, h1, h2, h3, h4]

/-- Witness for C8 at a concrete incompatible configuration. -/
theorem c8_config_check_order_witness :
    startupTrace { reads := "r", tab := true, out := "p" } ["a.fq", "b.fq"] =
      ["a.fq", "b.fq"].map StartEvent.openInput ++
        [.fatalConfig "Tabular output only supports writing to stdout"] :=
  (c8_config_check_order { reads := "r", tab := true, out := "p" }
    ["a.fq", "b.fq"]).2.2 (by decide) (by decide) rfl (by decide)

/-! ## Claim C4: stream-0 end of input versus desynchronization -/

theorem innerOthers_append_empty_stream (cfg : CliArgs) (n : Nat)
    (filter : List String) (rest : List (List String)) :
    ∀ (pre : List (List String)) (i : Nat) (st st2 : EngineState)
      (tl : List (List String)),
      innerOthers cfg n filter i pre st = .okRes st2 tl →
      innerOthers cfg n filter i (pre ++ [] :: rest) st =
        .errRes (.desync (i + pre.length)) st2 := by
  intro pre
  induction pre with
  | nil =>
    intro i st st2 tl h
    simp only [innerOthers] at h
    cases h
    simp [innerOthers]
  | cons s pre ih =>
    intro i st st2 tl h
    cases s with
    | nil => simp [innerOthers] at h
    | cons line tl0 =>
      simp only [innerOthers] at h
      cases hp : processLine cfg n filter i line st with
      | error e => simp only [hp] at h; simp at h
      | ok st1 =>
        simp only [hp] at h
        cases hin : innerOthers cfg n filter (i + 1) pre st1 with
        | errRes e st' => simp only [hin] at h; simp at h
        | okRes st' tails =>
          simp only [hin, InnerRes.okRes.injEq] at h
          obtain ⟨h1, h2⟩ := h
          subst h1
          have hr := ih (i + 1) st1 st' tails hin
          simp only [List.cons_append, innerOthers, List.append_eq, hp, hr,
            List.length_cons]
          have harith : i + 1 + pre.length = i + (pre.length + 1) := by omega
          rw [harith]

/-- Claim C4: when stream 0 fails to produce a line the loop ends
successfully whatever the other streams hold; when a secondary stream
fails to produce a line in an iteration in which stream 0 did (and the
streams before it were processed without error), the loop aborts with
the desynchronization error carrying that stream's index. -/
theorem c4_eof_vs_desync (cfg : CliArgs) (n : Nat) (filter : List String)
    (others : List (List String)) (st : EngineState) (l0 : String)
    (r0 : List String) (pre rest : List (List String))
    (st1 st2 : EngineState) (tl : List (List String))
    (hp : processLine cfg n filter 0 l0 st = .ok st1)
    (hok : innerOthers cfg n filter 1 pre st1 = .okRes st2 tl) :
    runLoop cfg n filter [] others st = ⟨st, .eof⟩ ∧
      runLoop cfg n filter (l0 :: r0) (pre ++ [] :: rest) st =
        ⟨st2, .fail (.desync (1 + pre.length))⟩ := by
  refine ⟨rfl, ?_⟩
  have hdes := innerOthers_append_empty_stream cfg n filter rest pre 1 st1 st2 tl hok
  simp [runLoop, hp, hdes]

/-- Witness for C4: one header line on stream 0, an already-empty
secondary stream. -/
theorem c4_eof_vs_desync_witness :
    runLoop ({} : CliArgs) 2 [] [] [["x"]] (initState 2 false) =
      ⟨initState 2 false, .eof⟩ ∧
      runLoop ({} : CliArgs) 2 [] ["@a"] [[]] (initState 2 false) =
        ⟨{ initState 2 false with name := "a", enable := false },
          .fail (.desync 1)⟩ :=
  c4_eof_vs_desync {} 2 [] [["x"]] (initState 2 false) "@a" [] [] []
    { initState 2 false with name := "a", enable := false }
    { initState 2 false with name := "a", enable := false } []
    rfl rfl

/-! ## Effect lemmas for the loop body -/


theorem headerStep_ok_fields {cfg : CliArgs} {filter : List String} {i : Nat}
    {line : String} {st st' : EngineState}
    (h : headerStep cfg filter i line st = .ok st') :
    st'.sequences = st.sequences ∧ st'.lineNum = st.lineNum ∧
      st'.included = st.included ∧ st'.excluded = st.excluded ∧
      st'.outputs = st.outputs ∧ st'.tabLines = st.tabLines := by
  unfold headerStep at h
  by_cases hs : hasSentinel line = true
  · rw [if_pos hs] at h
    by_cases hi : i = 0
    · rw [if_pos hi] at h
      cases hn : nameOf cfg.shortName line with
      | error e => simp only [hn] at h; exact Except.noConfusion h
      | ok nm =>
        simp only [hn, Except.ok.injEq] at h
        subst h; simp
    · rw [if_neg hi] at h
      simp only [Except.ok.injEq] at h
      subst h; simp
  · rw [if_neg hs] at h
    exact Except.noConfusion h

theorem seqStep_fields (i : Nat) (line : String) (st : EngineState) :
    (seqStep i line st).lineNum = st.lineNum ∧
      (seqStep i line st).name = st.name ∧
      (seqStep i line st).enable = st.enable ∧
      (seqStep i line st).outputs = st.outputs ∧
      (seqStep i line st).tabLines = st.tabLines ∧
      (i ≠ 0 → (seqStep i line st).included = st.included ∧
        (seqStep i line st).excluded = st.excluded) ∧
      (i = 0 → (seqStep i line st).included + (seqStep i line st).excluded =
        st.included + st.excluded + 1) ∧
      ((seqStep i line st).included = st.included ∨
        (seqStep i line st).included = st.included + 1) := by
  unfold seqStep
  by_cases hi : i = 0
  · by_cases he : st.enable = true <;> simp [hi, he] <;> omega
  · simp [hi]

theorem emitStep_fields (cfg : CliArgs) (n i : Nat) (line : String)
    (st : EngineState) :
    (emitStep cfg n i line st).lineNum = st.lineNum ∧
      (emitStep cfg n i line st).included = st.included ∧
      (emitStep cfg n i line st).excluded = st.excluded := by
  unfold emitStep
  by_cases he : st.enable = true
  · by_cases ht : cfg.tab = true
    · by_cases hc : i + 1 = n ∧ st.lineNum % 4 = 1 <;> simp [he, ht, hc]
    · simp [he, ht]
  · simp [he]

theorem seqEmit_fields (cfg : CliArgs) (n i : Nat) (line : String)
    (st : EngineState) :
    (seqEmit cfg n i line st).lineNum = st.lineNum ∧
      (i ≠ 0 → (seqEmit cfg n i line st).included = st.included ∧
        (seqEmit cfg n i line st).excluded = st.excluded) ∧
      (i = 0 → (seqEmit cfg n i line st).included +
          (seqEmit cfg n i line st).excluded =
        st.included + st.excluded + (if st.lineNum % 4 = 1 then 1 else 0)) ∧
      ((seqEmit cfg n i line st).included = st.included ∨
        ((seqEmit cfg n i line st).included = st.included + 1 ∧
          st.lineNum % 4 = 1)) := by
  unfold seqEmit
  by_cases h1 : st.lineNum % 4 = 1
  · rw [if_pos h1]
    obtain ⟨sln, _, _, _, _, snz, sz, sbin⟩ := seqStep_fields i line st
    obtain ⟨eln, einc, eexc⟩ := emitStep_fields cfg n i line (seqStep i line st)
    refine ⟨by rw [eln, sln], fun hi => ?_, fun hi => ?_, ?_⟩
    · obtain ⟨a, b⟩ := snz hi
      exact ⟨by rw [einc, a], by rw [eexc, b]⟩
    · rw [einc, eexc, sz hi, if_pos h1]
    · rcases sbin with a | a
      · exact Or.inl (by rw [einc, a])
      · exact Or.inr ⟨by rw [einc, a], h1⟩
  · rw [if_neg h1]
    obtain ⟨eln, einc, eexc⟩ := emitStep_fields cfg n i line st
    exact ⟨eln, fun _ => ⟨einc, eexc⟩,
      fun _ => by simp [einc, eexc, h1],
      Or.inl einc⟩

theorem processLine_ok_effects {cfg : CliArgs} {n : Nat} {filter : List String}
    {i : Nat} {line : String} {st st' : EngineState}
    (h : processLine cfg n filter i line st = .ok st') :
    st'.lineNum = st.lineNum ∧
      (i ≠ 0 → st'.included = st.included ∧ st'.excluded = st.excluded) ∧
      (i = 0 → st'.included + st'.excluded =
        st.included + st.excluded + (if st.lineNum % 4 = 1 then 1 else 0)) ∧
      (st'.included = st.included ∨
        (st'.included = st.included + 1 ∧ st.lineNum % 4 = 1)) := by
  unfold processLine at h
  by_cases h0 : st.lineNum % 4 = 0
  · rw [if_pos h0] at h
    cases hh : headerStep cfg filter i line st with
    | error e => simp only [hh] at h; exact Except.noConfusion h
    | ok st1 =>
      simp only [hh, Except.ok.injEq] at h
      obtain ⟨_, hln, hinc, hexc, _, _⟩ := headerStep_ok_fields hh
      obtain ⟨eln, enz, ez, ebin⟩ := seqEmit_fields cfg n i line st1
      subst h
      have hln1 : st1.lineNum % 4 ≠ 1 := by rw [hln]; omega
      refine ⟨by rw [eln, hln], fun hi => ?_, fun hi => ?_, ?_⟩
      · obtain ⟨a, b⟩ := enz hi
        exact ⟨by rw [a, hinc], by rw [b, hexc]⟩
      · rw [ez hi, hinc, hexc, if_neg hln1,
          if_neg (show ¬ st.lineNum % 4 = 1 by omega)]
      · rcases ebin with a | a
        · exact Or.inl (by rw [a, hinc])
        · exact absurd a.2 hln1
  · rw [if_neg h0] at h
    simp only [Except.ok.injEq] at h
    obtain ⟨eln, enz, ez, ebin⟩ := seqEmit_fields cfg n i line st
    subst h
    exact ⟨eln, enz, ez, ebin⟩

theorem innerOthers_ok_effects (cfg : CliArgs) (n : Nat)
    (filter : List String) :
    ∀ (others : List (List String)) (i : Nat) (st st' : EngineState)
      (tails : List (List String)),
      1 ≤ i → innerOthers cfg n filter i others st = .okRes st' tails →
      st'.lineNum = st.lineNum ∧ st'.included = st.included ∧
        st'.excluded = st.excluded := by
  intro others
  induction others with
  | nil =>
    intro i st st' tails _ h
    simp only [innerOthers] at h
    cases h
    exact ⟨rfl, rfl, rfl⟩
  | cons s rest ih =>
    intro i st st' tails hi h
    cases s with
    | nil => simp [innerOthers] at h
    | cons line tl =>
      simp only [innerOthers] at h
      cases hp : processLine cfg n filter i line st with
      | error e => simp only [hp] at h; simp at h
      | ok st1 =>
        simp only [hp] at h
        cases hin : innerOthers cfg n filter (i + 1) rest st1 with
        | errRes e st2 => simp only [hin] at h; simp at h
        | okRes st2 tails2 =>
          simp only [hin, InnerRes.okRes.injEq] at h
          obtain ⟨h1, _⟩ := h
          subst h1
          obtain ⟨pln, pz, _, _⟩ := processLine_ok_effects hp
          obtain ⟨a, b⟩ := pz (by omega)
          obtain ⟨rln, rinc, rexc⟩ := ih (i + 1) st1 st2 tails2 (by omega) hin
          exact ⟨by rw [rln, pln], by rw [rinc, a], by rw [rexc, b]⟩

/-! ## Claim C1: when the match-limit check actually fires -/

theorem runLoop_limit_stop (cfg : CliArgs) (n : Nat) (filter : List String) :
    ∀ (rest0 : List String) (others : List (List String)) (st : EngineState),
      (0 < cfg.limit → (st.included : Int) < cfg.limit) →
      (runLoop cfg n filter rest0 others st).term = .limit →
      (runLoop cfg n filter rest0 others st).st.lineNum % 4 = 2 ∧
        ((runLoop cfg n filter rest0 others st).st.included : Int) =
          cfg.limit := by
  intro rest0
  induction rest0 with
  | nil =>
    intro others st _ hterm
    simp [runLoop] at hterm
  | cons l0 r0 ih =>
    intro others st hinv hterm
    rw [runLoop] at hterm ⊢
    cases hp : processLine cfg n filter 0 l0 st with
    | error e => simp only [hp] at hterm ⊢; simp at hterm
    | ok st1 =>
      simp only [hp] at hterm ⊢
      cases hin : innerOthers cfg n filter 1 others st1 with
      | errRes e st2 => simp only [hin] at hterm ⊢; simp at hterm
      | okRes st2 tails =>
        simp only [hin] at hterm ⊢
        obtain ⟨pln, _, _, pbin⟩ := processLine_ok_effects hp
        obtain ⟨iln, iinc, _⟩ :=
          innerOthers_ok_effects cfg n filter others 1 st1 st2 tails
            (by omega) hin
        by_cases hstop : 0 < cfg.limit ∧
            cfg.limit ≤ (({ st2 with lineNum := st2.lineNum + 1 } :
              EngineState).included : Int)
        · rw [if_pos hstop] at hterm ⊢
          have hlt := hinv hstop.1
          have hle : cfg.limit ≤ (st2.included : Int) := hstop.2
          rw [iinc] at hle
          rcases pbin with a | ⟨a, b⟩
          · rw [a] at hle; omega
          · constructor
            · simp only [iln, pln]
              omega
            · simp only [iinc, a]
              push_cast
              omega
        · rw [if_neg hstop] at hterm ⊢
          refine ih tails { st2 with lineNum := st2.lineNum + 1 }
            (fun hpos => ?_) hterm
          simp only [not_and, not_le] at hstop
          exact hstop hpos

/-- Counterexample for C1 as stated: with `-limit 1` and an input of
two full records whose first record matches, the run stops via the
match-limit ("reached limit") after only 2 lines — in the middle of
the first record's four lines, with the rest of the input unread. The
limit check is per line position, not per complete record. -/
theorem c1_counterexample :
    (runEngine { limit := 1 } ["a"]
      ["@a", "S1", "+", "Q1", "@b", "S2", "+", "Q2"] []).term =
        RunTerm.limit ∧
      (runEngine { limit := 1 } ["a"]
        ["@a", "S1", "+", "Q1", "@b", "S2", "+", "Q2"] []).st.lineNum = 2 ∧
      (runEngine { limit := 1 } ["a"]
        ["@a", "S1", "+", "Q1", "@b", "S2", "+", "Q2"] []).st.lineNum % 4 ≠ 0 :=
  ⟨rfl, rfl, by decide⟩

/-- Claim C1 (amended): the match-limit check runs after every line
position (once per line across all streams), not once per record;
whenever a run stops through it, the stop happens immediately after
the sequence line of the K-th included record — two lines into that
record (final line position ≡ 2 mod 4) — with the included-count
exactly equal to the configured limit. -/
theorem c1_limit_stop_midrecord (cfg : CliArgs) (filter : List String)
    (s0 : List String) (others : List (List String))
    (h : (runEngine cfg filter s0 others).term = RunTerm.limit) :
    (runEngine cfg filter s0 others).st.lineNum % 4 = 2 ∧
      ((runEngine cfg filter s0 others).st.included : Int) = cfg.limit := by
  unfold runEngine at h ⊢
  exact runLoop_limit_stop cfg (1 + others.length) filter s0 others
    (initState (1 + others.length) cfg.invert)
    (fun hpos => by simp [initState]; omega) h

/-- Witness for C1 at the counterexample input: the limit run stops
at line position 2 with included-count 1. -/
theorem c1_limit_stop_midrecord_witness :
    (runEngine { limit := 1 } ["a"]
      ["@a", "S1", "+", "Q1", "@b", "S2", "+", "Q2"] []).st.lineNum % 4 = 2 ∧
      ((runEngine { limit := 1 } ["a"]
        ["@a", "S1", "+", "Q1", "@b", "S2", "+", "Q2"] []).st.included : Int) =
        ({ limit := 1 } : CliArgs).limit :=
  c1_limit_stop_midrecord { limit := 1 } ["a"]
    ["@a", "S1", "+", "Q1", "@b", "S2", "+", "Q2"] [] rfl

/-! ## Claim C6: what the two counters add up to -/

theorem runLoop_counts (cfg : CliArgs) (n : Nat) (filter : List String) :
    ∀ (rest0 : List String) (others : List (List String)) (st : EngineState),
      (runLoop cfg n filter rest0 others st).term.isFail = false →
      (runLoop cfg n filter rest0 others st).st.included +
          (runLoop cfg n filter rest0 others st).st.excluded +
          (st.lineNum + 2) / 4 =
        st.included + st.excluded +
          ((runLoop cfg n filter rest0 others st).st.lineNum + 2) / 4 ∧
      ((runLoop cfg n filter rest0 others st).term = .eof →
        (runLoop cfg n filter rest0 others st).st.lineNum =
          st.lineNum + rest0.length) := by
  intro rest0
  induction rest0 with
  | nil =>
    intro others st _
    simp [runLoop]
  | cons l0 r0 ih =>
    intro others st hok
    rw [runLoop] at hok ⊢
    cases hp : processLine cfg n filter 0 l0 st with
    | error e => simp only [hp] at hok ⊢; simp [RunTerm.isFail] at hok
    | ok st1 =>
      simp only [hp] at hok ⊢
      cases hin : innerOthers cfg n filter 1 others st1 with
      | errRes e st2 =>
        simp only [hin] at hok ⊢; simp [RunTerm.isFail] at hok
      | okRes st2 tails =>
        simp only [hin] at hok ⊢
        obtain ⟨pln, _, pz, _⟩ := processLine_ok_effects hp
        have psum := pz rfl
        obtain ⟨iln, iinc, iexc⟩ :=
          innerOthers_ok_effects cfg n filter others 1 st1 st2 tails
            (by omega) hin
        by_cases hstop : 0 < cfg.limit ∧
            cfg.limit ≤ (({ st2 with lineNum := st2.lineNum + 1 } :
              EngineState).included : Int)
        · rw [if_pos hstop] at hok ⊢
          constructor
          · simp only [iln, pln, iinc, iexc]
            by_cases h1 : st.lineNum % 4 = 1
            · rw [if_pos h1] at psum; omega
            · rw [if_neg h1] at psum; omega
          · intro habs; simp at habs
        · rw [if_neg hstop] at hok ⊢
          obtain ⟨ihsum, iheof⟩ :=
            ih tails { st2 with lineNum := st2.lineNum + 1 } hok
          constructor
          · simp only [iln, pln, iinc, iexc] at ihsum ⊢
            by_cases h1 : st.lineNum % 4 = 1
            · rw [if_pos h1] at psum; omega
            · rw [if_neg h1] at psum; omega
          · intro heof
            have := iheof heof
            simp only [iln, pln, List.length_cons] at this ⊢
            omega

/-- Counterexample for C6 as stated: a stream-0 input of only 2 lines
(header and sequence) ends cleanly with included + excluded = 1,
although zero complete 4-line records were read — the counters are
bumped at the sequence line, before a record is complete. -/
theorem c6_counterexample :
    (runEngine {} [] ["@a", "S"] []).term = RunTerm.eof ∧
      (runEngine {} [] ["@a", "S"] []).st.included +
        (runEngine {} [] ["@a", "S"] []).st.excluded = 1 ∧
      (runEngine {} [] ["@a", "S"] []).st.lineNum = 2 ∧
      (runEngine {} [] ["@a", "S"] []).st.lineNum / 4 = 0 ∧
      ¬ ((runEngine {} [] ["@a", "S"] []).st.included +
          (runEngine {} [] ["@a", "S"] []).st.excluded =
        (runEngine {} [] ["@a", "S"] []).st.lineNum / 4) :=
  ⟨rfl, rfl, rfl, rfl, by decide⟩

/-- Claim C6 (amended): in every run that does not abort on a fatal
error, included + excluded equals the number of stream-0 records
whose header and sequence lines were both consumed — that is,
(L + 2) / 4 for L lines consumed from stream 0 (L is the final line
counter; on clean end of input L is the whole stream-0 length). This
equals the complete-record count L / 4 only when L % 4 < 2. -/
theorem c6_counter_sum (cfg : CliArgs) (filter : List String)
    (s0 : List String) (others : List (List String))
    (h : (runEngine cfg filter s0 others).term.isFail = false) :
    (runEngine cfg filter s0 others).st.included +
        (runEngine cfg filter s0 others).st.excluded =
      ((runEngine cfg filter s0 others).st.lineNum + 2) / 4 ∧
      ((runEngine cfg filter s0 others).term = .eof →
        (runEngine cfg filter s0 others).st.lineNum = s0.length) := by
  unfold runEngine at h ⊢
  obtain ⟨hsum, heof⟩ := runLoop_counts cfg (1 + others.length) filter s0
    others (initState (1 + others.length) cfg.invert) h
  refine ⟨?_, fun he => by simpa [initState] using heof he⟩
  simp only [initState] at hsum ⊢
  omega

/-- Witness for C6: a clean 6-line single-stream run (one full record
and one half record): included + excluded = 2 = (6 + 2) / 4. -/
theorem c6_counter_sum_witness :
    (runEngine {} ["b"] ["@a", "S", "+", "Q", "@b", "T"] []).st.included +
        (runEngine {} ["b"] ["@a", "S", "+", "Q", "@b", "T"] []).st.excluded =
      ((runEngine {} ["b"] ["@a", "S", "+", "Q", "@b", "T"] []).st.lineNum + 2) / 4 ∧
      ((runEngine {} ["b"] ["@a", "S", "+", "Q", "@b", "T"] []).term = .eof →
        (runEngine {} ["b"] ["@a", "S", "+", "Q", "@b", "T"] []).st.lineNum =
          (["@a", "S", "+", "Q", "@b", "T"] : List String).length) :=
  c6_counter_sum {} ["b"] ["@a", "S", "+", "Q", "@b", "T"] [] rfl

/-! ## Structural lemmas for buffer and sink updates -/

theorem writeTo_cons_zero (o : List String) (os : List (List String))
    (h : String) : writeTo (o :: os) 0 h = (o ++ [h]) :: os := by
  simp [writeTo]

theorem writeTo_cons_succ (x : List String) (os : List (List String))
    (i : Nat) (h : String) :
    writeTo (x :: os) (i + 1) h = x :: writeTo os i h := by
  simp [writeTo, List.getD_cons_succ]

theorem appendEach_cons_shift :
    ∀ (hs : List String) (x : List String) (os : List (List String)) (i : Nat),
      appendEach (x :: os) (i + 1) hs = x :: appendEach os i hs := by
  intro hs
  induction hs with
  | nil => intro x os i; rfl
  | cons h hs ih =>
    intro x os i
    rw [appendEach, writeTo_cons_succ, ih, appendEach]

theorem appendEach_cons_zero (o : List String) (os : List (List String))
    (h : String) (hs : List String) :
    appendEach (o :: os) 0 (h :: hs) = (o ++ [h]) :: appendEach os 0 hs := by
  rw [appendEach, writeTo_cons_zero, appendEach_cons_shift]

theorem setAll_cons_shift :
    ∀ (hs : List String) (x : String) (l : List String) (i : Nat),
      setAll (x :: l) (i + 1) hs = x :: setAll l i hs := by
  intro hs
  induction hs with
  | nil => intro x l i; rfl
  | cons h hs ih =>
    intro x l i
    rw [setAll, List.set_cons_succ, ih, setAll]

theorem setAll_full :
    ∀ (hs l : List String), l.length = hs.length → setAll l 0 hs = hs := by
  intro hs
  induction hs with
  | nil =>
    intro l hl
    rw [List.length_nil, List.length_eq_zero] at hl
    subst hl; rfl
  | cons h hs ih =>
    intro l hl
    cases l with
    | nil => simp at hl
    | cons x l =>
      rw [setAll, List.set_cons_zero, setAll_cons_shift,
        ih l (by simpa using hl)]

theorem zipWith_cons_split {α : Type} (f : α → String)
    (g : α → List String → List String) :
    ∀ (rs : List α) (ts : List (List String)),
      List.zipWith (fun r t => f r :: g r t) rs ts =
        List.zipWith List.cons (rs.map f) (List.zipWith g rs ts) := by
  intro rs
  induction rs with
  | nil => intro ts; simp
  | cons r rs ih =>
    intro ts
    cases ts with
    | nil => simp
    | cons t ts => simp [ih]

theorem appendEach_four (recs : List FqRec) :
    ∀ outs : List (List String), outs.length = recs.length →
      appendEach (appendEach (appendEach (appendEach outs 0
          (recs.map FqRec.hdr)) 0 (recs.map FqRec.seq)) 0
          (recs.map FqRec.plus)) 0 (recs.map FqRec.qual) =
        List.zipWith (fun o r => o ++ recLines r) outs recs := by
  induction recs with
  | nil =>
    intro outs h
    rw [List.length_nil, List.length_eq_zero] at h
    subst h; rfl
  | cons r recs ih =>
    intro outs h
    cases outs with
    | nil => simp at h
    | cons o os =>
      simp only [List.map_cons, appendEach_cons_zero, List.zipWith_cons_cons]
      rw [ih os (by simpa using h)]
      simp [recLines]

/-! ## Evaluation lemmas for the loop body -/

theorem nameOf_ok (sn : Bool) (line : String)
    (h : sn = true → (firstField (strTail line)).isSome = true) :
    nameOf sn line = .ok (lineName sn line) := by
  cases sn with
  | false => simp [nameOf, lineName]
  | true =>
    obtain ⟨t, ht⟩ := Option.isSome_iff_exists.mp (h rfl)
    simp [nameOf, lineName, ht]

theorem processLine_zero_nonheader (cfg : CliArgs) (n : Nat)
    (filter : List String) (line : String) (st : EngineState)
    (hmod : st.lineNum % 4 ≠ 0) :
    processLine cfg n filter 0 line st = .ok (seqEmit cfg n 0 line st) := by
  unfold processLine
  rw [if_neg hmod]

theorem processLine_zero_header (cfg : CliArgs) (n : Nat)
    (filter : List String) (line : String) (st : EngineState)
    (hmod : st.lineNum % 4 = 0) (hsent : hasSentinel line = true)
    (hnm : cfg.shortName = true → (firstField (strTail line)).isSome = true) :
    processLine cfg n filter 0 line st =
      .ok (seqEmit cfg n 0 line
        { st with name := lineName cfg.shortName line,
                  enable := decOf cfg filter (lineName cfg.shortName line) }) := by
  unfold processLine headerStep
  rw [if_pos hmod, if_pos hsent, if_pos rfl, nameOf_ok cfg.shortName line hnm]

theorem processLine_other (cfg : CliArgs) (n : Nat) (filter : List String)
    (i : Nat) (line : String) (st : EngineState) (hi : i ≠ 0)
    (hh : st.lineNum % 4 = 0 → hasSentinel line = true) :
    processLine cfg n filter i line st = .ok (seqEmit cfg n i line st) := by
  unfold processLine headerStep
  by_cases hmod : st.lineNum % 4 = 0
  · rw [if_pos hmod, if_pos (hh hmod), if_neg hi]
  · rw [if_neg hmod]

theorem emitStep_not_enabled (cfg : CliArgs) (n i : Nat) (line : String)
    (st : EngineState) (he : st.enable = false) :
    emitStep cfg n i line st = st := by
  simp [emitStep, he]

theorem emitStep_write (cfg : CliArgs) (n i : Nat) (line : String)
    (st : EngineState) (he : st.enable = true) (ht : cfg.tab = false) :
    emitStep cfg n i line st =
      { st with outputs := writeTo st.outputs i line } := by
  simp [emitStep, he, ht]

theorem emitStep_tab_hit (cfg : CliArgs) (n i : Nat) (line : String)
    (st : EngineState) (he : st.enable = true) (ht : cfg.tab = true)
    (hc : i + 1 = n ∧ st.lineNum % 4 = 1) :
    emitStep cfg n i line st =
      { st with tabLines := st.tabLines ++ [tabJoin st.name st.sequences] } := by
  simp [emitStep, he, ht, hc]

theorem emitStep_tab_miss (cfg : CliArgs) (n i : Nat) (line : String)
    (st : EngineState) (ht : cfg.tab = true)
    (hc : ¬ (i + 1 = n ∧ st.lineNum % 4 = 1)) :
    emitStep cfg n i line st = st := by
  by_cases he : st.enable = true
  · simp [emitStep, he, ht, hc]
  · simp [emitStep, he]

theorem seqEmit_not_seq (cfg : CliArgs) (n i : Nat) (line : String)
    (st : EngineState) (hmod : st.lineNum % 4 ≠ 1) :
    seqEmit cfg n i line st = emitStep cfg n i line st := by
  rw [seqEmit, if_neg hmod]

theorem seqEmit_seq (cfg : CliArgs) (n i : Nat) (line : String)
    (st : EngineState) (hmod : st.lineNum % 4 = 1) :
    seqEmit cfg n i line st = emitStep cfg n i line (seqStep i line st) := by
  rw [seqEmit, if_pos hmod]

theorem seqStep_other (i : Nat) (line : String) (st : EngineState)
    (hi : i ≠ 0) :
    seqStep i line st = { st with sequences := st.sequences.set i line } := by
  simp [seqStep, hi]

theorem seqStep_zero (line : String) (st : EngineState) :
    seqStep 0 line st =
      if st.enable then
        { st with sequences := st.sequences.set 0 line,
                  included := st.included + 1 }
      else
        { st with sequences := st.sequences.set 0 line,
                  excluded := st.excluded + 1 } := by
  by_cases he : st.enable = true <;> simp [seqStep, he]

/-! ## Closed forms for the secondary-stream pass -/

theorem innerOthers_all_ok (cfg : CliArgs) (n : Nat) (filter : List String) :
    ∀ (heads : List String) (tails : List (List String)) (i : Nat)
      (st : EngineState),
      heads.length = tails.length → 1 ≤ i →
      (∀ h ∈ heads, st.lineNum % 4 = 0 → hasSentinel h = true) →
      innerOthers cfg n filter i (List.zipWith List.cons heads tails) st =
        .okRes (othersPass cfg n i heads st) tails := by
  intro heads
  induction heads with
  | nil =>
    intro tails i st hlen _ _
    rw [List.length_nil, eq_comm, List.length_eq_zero] at hlen
    subst hlen
    rfl
  | cons h hs ih =>
    intro tails i st hlen hi hsent
    cases tails with
    | nil => simp at hlen
    | cons t ts =>
      rw [List.zipWith_cons_cons, innerOthers,
        processLine_other cfg n filter i h st (by omega)
          (fun hm => hsent h (by simp) hm)]
      have hln : (seqEmit cfg n i h st).lineNum = st.lineNum :=
        (seqEmit_fields cfg n i h st).1
      have hrec := ih ts (i + 1) (seqEmit cfg n i h st) (by simpa using hlen)
        (by omega) (fun x hx hm => hsent x (by simp [hx]) (by rwa [hln] at hm))
      simp only [hrec, othersPass]

theorem othersPass_not_seq (cfg : CliArgs) (n : Nat) :
    ∀ (heads : List String) (i : Nat) (st : EngineState),
      st.lineNum % 4 ≠ 1 →
      othersPass cfg n i heads st =
        if st.enable = true ∧ cfg.tab = false then
          { st with outputs := appendEach st.outputs i heads }
        else st := by
  intro heads
  induction heads with
  | nil =>
    intro i st _
    split <;> simp [othersPass, appendEach]
  | cons h hs ih =>
    intro i st hmod
    rw [othersPass, seqEmit_not_seq cfg n i h st hmod]
    by_cases he : st.enable = true
    · by_cases ht : cfg.tab = true
      · rw [emitStep_tab_miss cfg n i h st ht (by simp [hmod]),
          ih (i + 1) st hmod]
        simp [he, ht]
      · rw [emitStep_write cfg n i h st he (by simpa using ht)]
        have hrec := ih (i + 1)
          { st with outputs := writeTo st.outputs i h } hmod
        rw [hrec]
        simp [he, ht, appendEach]
    · rw [emitStep_not_enabled cfg n i h st (by simpa using he)]
      rw [ih (i + 1) st hmod]
      simp [he]

theorem othersPass_seq (cfg : CliArgs) (n : Nat) :
    ∀ (heads : List String) (i : Nat) (st : EngineState),
      st.lineNum % 4 = 1 → 1 ≤ i → i + heads.length = n →
      othersPass cfg n i heads st =
        { st with
          sequences := setAll st.sequences i heads,
          outputs :=
            if st.enable = true ∧ cfg.tab = false then
              appendEach st.outputs i heads
            else st.outputs,
          tabLines :=
            st.tabLines ++
              (if st.enable = true ∧ cfg.tab = true ∧ heads ≠ [] then
                [tabJoin st.name (setAll st.sequences i heads)]
              else []) } := by
  intro heads
  induction heads with
  | nil =>
    intro i st _ _ _
    split <;> simp [othersPass, setAll, appendEach]
  | cons h hs ih =>
    intro i st hmod hi hn
    rw [othersPass, seqEmit_seq cfg n i h st hmod,
      seqStep_other i h st (by omega)]
    by_cases he : st.enable = true
    · by_cases ht : cfg.tab = true
      · cases hs with
        | nil =>
          rw [emitStep_tab_hit cfg n i h _ (by simpa using he)
            (by simpa using ht)
            (by refine ⟨?_, by simpa using hmod⟩
                simp only [List.length_cons, List.length_nil] at hn
                omega)]
          simp [othersPass, setAll, he, ht]
        | cons h2 hs2 =>
          rw [emitStep_tab_miss cfg n i h _ (by simpa using ht)
            (by rintro ⟨ha, -⟩
                simp only [List.length_cons] at hn
                omega)]
          rw [ih (i + 1) _ (by simpa using hmod) (by omega)
            (by simp only [List.length_cons] at hn ⊢; omega)]
          simp [he, ht, setAll]
      · rw [emitStep_write cfg n i h _ (by simpa using he)
          (by simpa using ht)]
        rw [ih (i + 1) _ (by simpa using hmod) (by omega)
          (by simp only [List.length_cons] at hn ⊢; omega)]
        simp [he, ht, setAll, appendEach]
    · rw [emitStep_not_enabled cfg n i h _ (by simpa using he)]
      rw [ih (i + 1) _ (by simpa using hmod) (by omega)
        (by simp only [List.length_cons] at hn ⊢; omega)]
      simp [he, setAll]

/-! ## One loop iteration, and one whole record, as state transformers -/

theorem runLoop_cons_step (cfg : CliArgs) (n : Nat) (filter : List String)
    (l0 : String) (r0 : List String) (others : List (List String))
    (st stA stB : EngineState) (tails : List (List String))
    (hp : processLine cfg n filter 0 l0 st = .ok stA)
    (hin : innerOthers cfg n filter 1 others stA = .okRes stB tails)
    (hlim : ¬ 0 < cfg.limit) :
    runLoop cfg n filter (l0 :: r0) others st =
      runLoop cfg n filter r0 tails (bump stB) := by
  rw [runLoop]
  simp only [hp, hin]
  rw [if_neg (by rintro ⟨h1, -⟩; exact hlim h1)]
  rfl

theorem othersPass_lineNum (cfg : CliArgs) (n : Nat) :
    ∀ (heads : List String) (i : Nat) (st : EngineState),
      (othersPass cfg n i heads st).lineNum = st.lineNum := by
  intro heads
  induction heads with
  | nil => intro i st; rfl
  | cons h hs ih =>
    intro i st
    rw [othersPass, ih, (seqEmit_fields cfg n i h st).1]

theorem rowPass_lineNum (cfg : CliArgs) (n : Nat) (l0 : String)
    (heads : List String) (st : EngineState) :
    (rowPass cfg n l0 heads st).lineNum = st.lineNum + 1 := by
  show (othersPass cfg n 1 heads (seqEmit cfg n 0 l0 st)).lineNum + 1 =
    st.lineNum + 1
  rw [othersPass_lineNum, (seqEmit_fields cfg n 0 l0 st).1]

theorem runLoop_pos_nonheader (cfg : CliArgs) (n : Nat)
    (filter : List String) (l0 : String) (heads : List String)
    (r0 : List String) (tails : List (List String)) (st : EngineState)
    (hlen : heads.length = tails.length) (hlim : ¬ 0 < cfg.limit)
    (hmod : st.lineNum % 4 ≠ 0) :
    runLoop cfg n filter (l0 :: r0) (List.zipWith List.cons heads tails) st =
      runLoop cfg n filter r0 tails (rowPass cfg n l0 heads st) := by
  have hp := processLine_zero_nonheader cfg n filter l0 st hmod
  have hin := innerOthers_all_ok cfg n filter heads tails 1
    (seqEmit cfg n 0 l0 st) hlen (by omega)
    (fun h hm hc => absurd hc
      (by rw [(seqEmit_fields cfg n 0 l0 st).1]; exact hmod))
  exact runLoop_cons_step cfg n filter l0 r0 _ st _ _ tails hp hin hlim

theorem runLoop_pos_header (cfg : CliArgs) (n : Nat) (filter : List String)
    (l0 : String) (heads : List String) (r0 : List String)
    (tails : List (List String)) (st : EngineState)
    (hlen : heads.length = tails.length) (hlim : ¬ 0 < cfg.limit)
    (hmod : st.lineNum % 4 = 0) (hsent : hasSentinel l0 = true)
    (hnm : cfg.shortName = true → (firstField (strTail l0)).isSome = true)
    (hho : ∀ h ∈ heads, hasSentinel h = true) :
    runLoop cfg n filter (l0 :: r0) (List.zipWith List.cons heads tails) st =
      runLoop cfg n filter r0 tails
        (rowPass cfg n l0 heads
          { st with name := lineName cfg.shortName l0,
                    enable := decOf cfg filter (lineName cfg.shortName l0) }) := by
  have hp := processLine_zero_header cfg n filter l0 st hmod hsent hnm
  have hin := innerOthers_all_ok cfg n filter heads tails 1
    (seqEmit cfg n 0 l0
      { st with name := lineName cfg.shortName l0,
                enable := decOf cfg filter (lineName cfg.shortName l0) })
    hlen (by omega) (fun h hm _ => hho h hm)
  exact runLoop_cons_step cfg n filter l0 r0 _ st _ _ tails hp hin hlim

theorem zipWith_snd_of_length {α : Type} :
    ∀ (rs : List α) (ts : List (List String)), rs.length = ts.length →
      List.zipWith (fun _ t => t) rs ts = ts := by
  intro rs
  induction rs with
  | nil =>
    intro ts h
    rw [List.length_nil, eq_comm, List.length_eq_zero] at h
    subst h; rfl
  | cons r rs ih =>
    intro ts h
    cases ts with
    | nil => simp at h
    | cons t ts => simp [ih ts (by simpa using h)]

theorem runLoop_record_step (cfg : CliArgs) (n : Nat) (filter : List String)
    (row : Row) (rest0 : List String) (ts : List (List String))
    (st : EngineState)
    (hts : row.2.length = ts.length) (hlim : ¬ 0 < cfg.limit)
    (hmod : st.lineNum % 4 = 0)
    (hs0 : hasSentinel row.1.hdr = true)
    (hsn : cfg.shortName = true → (firstField (strTail row.1.hdr)).isSome = true)
    (hso : ∀ r ∈ row.2, hasSentinel r.hdr = true) :
    runLoop cfg n filter (recLines row.1 ++ rest0)
        (List.zipWith (fun r t => recLines r ++ t) row.2 ts) st =
      runLoop cfg n filter rest0 ts (rowAdvance cfg n filter row st) := by
  have hd0 : List.zipWith (fun r t => recLines r ++ t) row.2 ts =
      List.zipWith List.cons (row.2.map FqRec.hdr)
        (List.zipWith (fun r t => r.seq :: r.plus :: r.qual :: t) row.2 ts) :=
    zipWith_cons_split FqRec.hdr (fun r t => r.seq :: r.plus :: r.qual :: t)
      row.2 ts
  have hd1 : List.zipWith (fun (r : FqRec) t => r.seq :: r.plus :: r.qual :: t)
        row.2 ts =
      List.zipWith List.cons (row.2.map FqRec.seq)
        (List.zipWith (fun r t => r.plus :: r.qual :: t) row.2 ts) :=
    zipWith_cons_split FqRec.seq (fun r t => r.plus :: r.qual :: t) row.2 ts
  have hd2 : List.zipWith (fun (r : FqRec) t => r.plus :: r.qual :: t)
        row.2 ts =
      List.zipWith List.cons (row.2.map FqRec.plus)
        (List.zipWith (fun r t => r.qual :: t) row.2 ts) :=
    zipWith_cons_split FqRec.plus (fun r t => r.qual :: t) row.2 ts
  have hd3 : List.zipWith (fun (r : FqRec) t => r.qual :: t) row.2 ts =
      List.zipWith List.cons (row.2.map FqRec.qual)
        (List.zipWith (fun _ t => t) row.2 ts) :=
    zipWith_cons_split FqRec.qual (fun _ t => t) row.2 ts
  have hsnd : List.zipWith (fun (_ : FqRec) t => t) row.2 ts = ts :=
    zipWith_snd_of_length row.2 ts hts
  have hlen0 : (row.2.map FqRec.hdr).length =
      (List.zipWith (fun (r : FqRec) t => r.seq :: r.plus :: r.qual :: t)
        row.2 ts).length := by
    simp [hts]
  have hlen1 : (row.2.map FqRec.seq).length =
      (List.zipWith (fun (r : FqRec) t => r.plus :: r.qual :: t)
        row.2 ts).length := by
    simp [hts]
  have hlen2 : (row.2.map FqRec.plus).length =
      (List.zipWith (fun (r : FqRec) t => r.qual :: t) row.2 ts).length := by
    simp [hts]
  have hlen3 : (row.2.map FqRec.qual).length =
      (List.zipWith (fun (_ : FqRec) t => t) row.2 ts).length := by
    simp [hts]
  show runLoop cfg n filter
    (row.1.hdr :: row.1.seq :: row.1.plus :: row.1.qual :: rest0) _ st = _
  rw [hd0, runLoop_pos_header cfg n filter row.1.hdr (row.2.map FqRec.hdr)
    (row.1.seq :: row.1.plus :: row.1.qual :: rest0) _ st hlen0 hlim hmod hs0
    hsn (fun h hm => by
      obtain ⟨r, hr, hre⟩ := List.mem_map.mp hm
      exact hre ▸ hso r hr)]
  rw [hd1, runLoop_pos_nonheader cfg n filter row.1.seq (row.2.map FqRec.seq)
    (row.1.plus :: row.1.qual :: rest0) _ _ hlen1 hlim
    (by rw [rowPass_lineNum]
        show ¬ (st.lineNum + 1) % 4 = 0
        omega)]
  rw [hd2, runLoop_pos_nonheader cfg n filter row.1.plus (row.2.map FqRec.plus)
    (row.1.qual :: rest0) _ _ hlen2 hlim
    (by rw [rowPass_lineNum, rowPass_lineNum]
        show ¬ (st.lineNum + 1 + 1) % 4 = 0
        omega)]
  rw [hd3, runLoop_pos_nonheader cfg n filter row.1.qual (row.2.map FqRec.qual)
    rest0 _ _ hlen3 hlim
    (by rw [rowPass_lineNum, rowPass_lineNum, rowPass_lineNum]
        show ¬ (st.lineNum + 1 + 1 + 1) % 4 = 0
        omega)]
  rw [hsnd]
  rfl

theorem set_setAll_full (l : List String) (l0 : String) (heads : List String)
    (hl : l.length = 1 + heads.length) :
    setAll (l.set 0 l0) 1 heads = l0 :: heads := by
  cases l with
  | nil => exact absurd hl (by simp; omega)
  | cons x srest =>
    rw [List.set_cons_zero, setAll_cons_shift,
      setAll_full heads srest
        (by simp only [List.length_cons] at hl; omega)]

theorem rowPass_not_seq (cfg : CliArgs) (n : Nat) (l0 : String)
    (heads : List String) (st : EngineState) (hmod : st.lineNum % 4 ≠ 1) :
    rowPass cfg n l0 heads st =
      { st with
        outputs :=
          if st.enable = true ∧ cfg.tab = false then
            appendEach st.outputs 0 (l0 :: heads)
          else st.outputs,
        lineNum := st.lineNum + 1 } := by
  rw [rowPass, seqEmit_not_seq cfg n 0 l0 st hmod]
  by_cases he : st.enable = true
  · by_cases ht : cfg.tab = true
    · rw [emitStep_tab_miss cfg n 0 l0 st ht (by simp [hmod]),
        othersPass_not_seq cfg n heads 1 st hmod]
      simp [he, ht, bump]
    · rw [emitStep_write cfg n 0 l0 st he (by simpa using ht)]
      have hrec := othersPass_not_seq cfg n heads 1
        { st with outputs := writeTo st.outputs 0 l0 } hmod
      rw [hrec]
      simp [he, ht, bump, appendEach]
  · rw [emitStep_not_enabled cfg n 0 l0 st (by simpa using he),
      othersPass_not_seq cfg n heads 1 st hmod]
    simp [he, bump]

theorem rowPass_seq (cfg : CliArgs) (n : Nat) (l0 : String)
    (heads : List String) (st : EngineState) (hmod : st.lineNum % 4 = 1)
    (hn : n = 1 + heads.length) (hseq : st.sequences.length = n) :
    rowPass cfg n l0 heads st =
      { st with
        sequences := l0 :: heads,
        included := st.included + (if st.enable = true then 1 else 0),
        excluded := st.excluded + (if st.enable = true then 0 else 1),
        outputs :=
          if st.enable = true ∧ cfg.tab = false then
            appendEach st.outputs 0 (l0 :: heads)
          else st.outputs,
        tabLines :=
          st.tabLines ++
            (if st.enable = true ∧ cfg.tab = true then
              [tabJoin st.name (l0 :: heads)]
            else []),
        lineNum := st.lineNum + 1 } := by
  have hfull : setAll (st.sequences.set 0 l0) 1 heads = l0 :: heads :=
    set_setAll_full st.sequences l0 heads (by omega)
  rw [rowPass, seqEmit_seq cfg n 0 l0 st hmod, seqStep_zero]
  by_cases he : st.enable = true
  · rw [if_pos he]
    by_cases ht : cfg.tab = true
    · cases heads with
      | nil =>
        have hset : st.sequences.set 0 l0 = [l0] := hfull
        rw [emitStep_tab_hit cfg n 0 l0 _ (by simpa using he)
          (by simpa using ht)
          ⟨by simp only [List.length_nil] at hn; omega, by simpa using hmod⟩]
        simp [othersPass, bump, he, ht, hset]
      | cons h2 hs2 =>
        rw [emitStep_tab_miss cfg n 0 l0 _ (by simpa using ht)
          (by rintro ⟨ha, -⟩
              simp only [List.length_cons] at hn
              omega)]
        have hrec := othersPass_seq cfg n (h2 :: hs2) 1
          { st with sequences := st.sequences.set 0 l0,
                    included := st.included + 1 }
          hmod (by omega) hn.symm
        rw [hrec]
        simp [hfull, bump, he, ht]
    · rw [emitStep_write cfg n 0 l0 _ (by simpa using he)
        (by simpa using ht)]
      have hrec := othersPass_seq cfg n heads 1
        { st with sequences := st.sequences.set 0 l0,
                  included := st.included + 1,
                  outputs := writeTo st.outputs 0 l0 }
        hmod (by omega) hn.symm
      rw [hrec]
      simp [hfull, bump, he, ht, appendEach]
  · rw [if_neg he]
    rw [emitStep_not_enabled cfg n 0 l0 _ (by simpa using he)]
    have hrec := othersPass_seq cfg n heads 1
      { st with sequences := st.sequences.set 0 l0,
                excluded := st.excluded + 1 }
      hmod (by omega) hn.symm
    rw [hrec]
    simp [hfull, bump, he]

theorem rowAdvance_eq (cfg : CliArgs) (n : Nat) (filter : List String)
    (row : Row) (st : EngineState)
    (hmod : st.lineNum % 4 = 0)
    (hn : n = 1 + row.2.length)
    (hseq : st.sequences.length = n)
    (hout : st.outputs.length = n) :
    rowAdvance cfg n filter row st = recStepState cfg filter row st := by
  rw [rowAdvance, rowPass_not_seq cfg n row.1.hdr (row.2.map FqRec.hdr)]
  rotate_left
  · show st.lineNum % 4 ≠ 1
    omega
  rw [rowPass_seq cfg n row.1.seq (row.2.map FqRec.seq)]
  rotate_left
  · show (st.lineNum + 1) % 4 = 1
    omega
  · show n = 1 + (row.2.map FqRec.seq).length
    simpa using hn
  · show st.sequences.length = n
    exact hseq
  rw [rowPass_not_seq cfg n row.1.plus (row.2.map FqRec.plus)]
  rotate_left
  · show (st.lineNum + 1 + 1) % 4 ≠ 1
    omega
  rw [rowPass_not_seq cfg n row.1.qual (row.2.map FqRec.qual)]
  rotate_left
  · show (st.lineNum + 1 + 1 + 1) % 4 ≠ 1
    omega
  have h4 := appendEach_four (row.1 :: row.2) st.outputs
    (by simp only [List.length_cons]; omega)
  simp only [List.map_cons] at h4
  simp only [recStepState, recName]
  by_cases he : decOf cfg filter (lineName cfg.shortName row.1.hdr) = true
  · by_cases ht : cfg.tab = true
    · simp [he, ht]
    · simp [he, ht, h4]
  · simp [he]

/-! ## The whole run over well-formed record-aligned input -/

theorem buildOthers_length (m : Nat) :
    ∀ rows : List Row, (∀ row ∈ rows, row.2.length = m) →
      (buildOthers m rows).length = m := by
  intro rows
  induction rows with
  | nil => intro _; simp [buildOthers]
  | cons row rows ih =>
    intro h
    rw [buildOthers, List.length_zipWith, ih (fun r hr => h r (by simp [hr])),
      h row (by simp), Nat.min_self]

theorem recStepState_facts (cfg : CliArgs) (filter : List String) (row : Row)
    (st : EngineState) :
    (recStepState cfg filter row st).lineNum = st.lineNum + 4 ∧
      (recStepState cfg filter row st).sequences.length = 1 + row.2.length ∧
      (st.outputs.length = 1 + row.2.length →
        (recStepState cfg filter row st).outputs.length = 1 + row.2.length) := by
  refine ⟨rfl, by simp [recStepState]; omega, fun h => ?_⟩
  simp only [recStepState]
  split
  · simp [List.length_zipWith, h]
    omega
  · exact h

theorem runLoop_rows (cfg : CliArgs) (filter : List String) (m : Nat) :
    ∀ (rows : List Row) (st : EngineState),
      (∀ row ∈ rows, wfRow cfg.shortName m row) →
      ¬ 0 < cfg.limit →
      st.lineNum % 4 = 0 →
      st.sequences.length = 1 + m →
      st.outputs.length = 1 + m →
      runLoop cfg (1 + m) filter (rowsS0 rows) (buildOthers m rows) st =
        ⟨List.foldl (fun s row => recStepState cfg filter row s) st rows,
          .eof⟩ := by
  intro rows
  induction rows with
  | nil => intro st _ _ _ _ _; rfl
  | cons row rows ih =>
    intro st hwf hlim hmod hseq hout
    obtain ⟨hs0, hsn, hso, hm⟩ := hwf row (by simp)
    have hbl : (buildOthers m rows).length = m :=
      buildOthers_length m rows (fun r hr => (hwf r (by simp [hr])).2.2.2)
    have hstep := runLoop_record_step cfg (1 + m) filter row (rowsS0 rows)
      (buildOthers m rows) st (by rw [hm, hbl]) hlim hmod hs0 hsn hso
    have hS0 : rowsS0 (row :: rows) = recLines row.1 ++ rowsS0 rows := by
      simp [rowsS0]
    have hBO : buildOthers m (row :: rows) =
        List.zipWith (fun r t => recLines r ++ t) row.2 (buildOthers m rows) :=
      rfl
    obtain ⟨fln, fseq, fouts⟩ := recStepState_facts cfg filter row st
    rw [hS0, hBO, hstep,
      rowAdvance_eq cfg (1 + m) filter row st hmod (by rw [hm]) hseq hout,
      ih (recStepState cfg filter row st)
        (fun r hr => hwf r (by simp [hr]))
        hlim (by omega) (by rw [fseq, hm]) (by rw [fouts (by rw [hout, hm]), hm]),
      List.foldl_cons]

theorem foldRows_included (cfg : CliArgs) (filter : List String) :
    ∀ (rows : List Row) (st : EngineState),
      (List.foldl (fun s row => recStepState cfg filter row s) st
        rows).included = st.included + (selRows cfg filter rows).length := by
  intro rows
  induction rows with
  | nil => intro st; simp [selRows]
  | cons row rows ih =>
    intro st
    rw [List.foldl_cons, ih]
    cases hdec : decOf cfg filter (recName cfg.shortName row.1) <;>
      (simp [selRows, List.filter_cons, hdec, recStepState]; try omega)

theorem foldRows_excluded (cfg : CliArgs) (filter : List String) :
    ∀ (rows : List Row) (st : EngineState),
      (List.foldl (fun s row => recStepState cfg filter row s) st
        rows).excluded = st.excluded +
          (rows.filter
            (fun row => !(decOf cfg filter (recName cfg.shortName row.1)))).length := by
  intro rows
  induction rows with
  | nil => intro st; simp
  | cons row rows ih =>
    intro st
    rw [List.foldl_cons, ih]
    cases hdec : decOf cfg filter (recName cfg.shortName row.1) <;>
      (simp [List.filter_cons, hdec, recStepState]; try omega)

theorem foldRows_lineNum (cfg : CliArgs) (filter : List String) :
    ∀ (rows : List Row) (st : EngineState),
      (List.foldl (fun s row => recStepState cfg filter row s) st
        rows).lineNum = st.lineNum + 4 * rows.length := by
  intro rows
  induction rows with
  | nil => intro st; simp
  | cons row rows ih =>
    intro st
    rw [List.foldl_cons, ih]
    simp [recStepState]
    omega

theorem foldRows_tabLines (cfg : CliArgs) (filter : List String)
    (ht : cfg.tab = true) :
    ∀ (rows : List Row) (st : EngineState),
      (List.foldl (fun s row => recStepState cfg filter row s) st
        rows).tabLines = st.tabLines ++
          (selRows cfg filter rows).map (rowTabLine cfg.shortName) := by
  intro rows
  induction rows with
  | nil => intro st; simp [selRows]
  | cons row rows ih =>
    intro st
    rw [List.foldl_cons, ih]
    cases hdec : decOf cfg filter (recName cfg.shortName row.1) <;>
      simp [selRows, List.filter_cons, hdec, recStepState, ht, rowTabLine]

theorem foldRows_outputs_tab (cfg : CliArgs) (filter : List String)
    (ht : cfg.tab = true) :
    ∀ (rows : List Row) (st : EngineState),
      (List.foldl (fun s row => recStepState cfg filter row s) st
        rows).outputs = st.outputs := by
  intro rows
  induction rows with
  | nil => intro st; rfl
  | cons row rows ih =>
    intro st
    rw [List.foldl_cons, ih]
    simp [recStepState, ht]

theorem zipWith_append_assoc_rec :
    ∀ (outs : List (List String)) (recs : List FqRec) (M : List (List String)),
      List.zipWith (fun o l => o ++ l) outs
          (List.zipWith (fun r t => recLines r ++ t) recs M) =
        List.zipWith (fun o l => o ++ l)
          (List.zipWith (fun o r => o ++ recLines r) outs recs) M := by
  intro outs
  induction outs with
  | nil => intro recs M; simp
  | cons o os ih =>
    intro recs M
    cases recs with
    | nil => simp
    | cons r recs =>
      cases M with
      | nil => simp
      | cons t M => simp [ih, List.append_assoc]

theorem zipWith_append_replicate_nil :
    ∀ (l : List (List String)) (n : Nat), l.length = n →
      List.zipWith (fun a b => a ++ b) l (List.replicate n []) = l := by
  intro l
  induction l with
  | nil => intro n h; simp
  | cons x xs ih =>
    intro n h
    cases n with
    | zero => simp at h
    | succ k =>
      simp only [List.replicate_succ, List.zipWith_cons_cons, List.append_nil]
      rw [ih k (by simpa using h)]

theorem foldRows_outputs (cfg : CliArgs) (filter : List String) (m : Nat)
    (ht : cfg.tab = false) :
    ∀ (rows : List Row) (st : EngineState),
      (∀ row ∈ rows, row.2.length = m) →
      st.outputs.length = 1 + m →
      (List.foldl (fun s row => recStepState cfg filter row s) st
        rows).outputs =
        List.zipWith (fun o l => o ++ l) st.outputs
          (streamCatFrom (1 + m) (selRows cfg filter rows)) := by
  intro rows
  induction rows with
  | nil =>
    intro st _ hout
    rw [eq_comm]
    simp only [selRows, List.filter_nil, streamCatFrom]
    exact zipWith_append_replicate_nil st.outputs (1 + m) hout
  | cons row rows ih =>
    intro st hrows hout
    have hm : row.2.length = m := hrows row (by simp)
    obtain ⟨-, -, fouts⟩ := recStepState_facts cfg filter row st
    rw [List.foldl_cons,
      ih (recStepState cfg filter row st)
        (fun r hr => hrows r (by simp [hr]))
        (by rw [fouts (by rw [hout, hm]), hm])]
    cases hdec : decOf cfg filter (recName cfg.shortName row.1) with
    | true =>
      have houts' : (recStepState cfg filter row st).outputs =
          List.zipWith (fun o r => o ++ recLines r) st.outputs
            (row.1 :: row.2) := by
        simp [recStepState, hdec, ht]
      have hsel : selRows cfg filter (row :: rows) =
          row :: selRows cfg filter rows := by
        simp [selRows, List.filter_cons, hdec]
      rw [houts', hsel]
      rw [show streamCatFrom (1 + m) (row :: selRows cfg filter rows) =
        List.zipWith (fun r t => recLines r ++ t) (row.1 :: row.2)
          (streamCatFrom (1 + m) (selRows cfg filter rows)) from rfl]
      rw [zipWith_append_assoc_rec]
    | false =>
      have houts' : (recStepState cfg filter row st).outputs = st.outputs := by
        simp [recStepState, hdec, ht]
      have hsel : selRows cfg filter (row :: rows) =
          selRows cfg filter rows := by
        simp [selRows, List.filter_cons, hdec]
      rw [houts', hsel]

theorem runEngine_rows (cfg : CliArgs) (filter : List String) (m : Nat)
    (rows : List Row)
    (hwf : ∀ row ∈ rows, wfRow cfg.shortName m row)
    (hlim : ¬ 0 < cfg.limit) :
    runEngine cfg filter (rowsS0 rows) (buildOthers m rows) =
      ⟨List.foldl (fun s row => recStepState cfg filter row s)
        (initState (1 + m) cfg.invert) rows, .eof⟩ := by
  have hbl := buildOthers_length m rows (fun r hr => (hwf r hr).2.2.2)
  unfold runEngine
  rw [hbl]
  exact runLoop_rows cfg filter m rows (initState (1 + m) cfg.invert) hwf hlim
    (by simp [initState]) (by simp [initState]) (by simp [initState])

theorem streamCatFrom_length (m : Nat) :
    ∀ sel : List Row, (∀ row ∈ sel, row.2.length = m) →
      (streamCatFrom (1 + m) sel).length = 1 + m := by
  intro sel
  induction sel with
  | nil => intro _; simp [streamCatFrom]
  | cons row sel ih =>
    intro h
    rw [streamCatFrom, List.length_zipWith,
      ih (fun r hr => h r (by simp [hr])), List.length_cons,
      h row (by simp)]
    omega

theorem zipWith_mem_decomp {α β γ : Type} {f : α → β → γ} {c : γ} :
    ∀ {as : List α} {bs : List β}, c ∈ List.zipWith f as bs →
      ∃ a b, a ∈ as ∧ b ∈ bs ∧ c = f a b := by
  intro as
  induction as with
  | nil => intro bs h; simp at h
  | cons a as ih =>
    intro bs h
    cases bs with
    | nil => simp at h
    | cons b bs =>
      rw [List.zipWith_cons_cons, List.mem_cons] at h
      rcases h with h | h
      · exact ⟨a, b, by simp, by simp, h⟩
      · obtain ⟨a', b', ha, hb, hc⟩ := ih h
        exact ⟨a', b', by simp [ha], by simp [hb], hc⟩

theorem streamCatFrom_len_mod4 (n : Nat) :
    ∀ (sel : List Row), ∀ out ∈ streamCatFrom n sel, out.length % 4 = 0 := by
  intro sel
  induction sel with
  | nil =>
    intro out hout
    rw [streamCatFrom] at hout
    rw [List.eq_of_mem_replicate hout]
    rfl
  | cons row sel ih =>
    intro out hout
    rw [streamCatFrom] at hout
    obtain ⟨r, t, _, htm, hc⟩ := zipWith_mem_decomp hout
    subst hc
    have := ih t htm
    simp only [recLines, List.length_append, List.length_cons,
      List.length_nil]
    omega

theorem filter_length_partition {α : Type} (p : α → Bool) :
    ∀ l : List α,
      (l.filter p).length + (l.filter (fun a => !(p a))).length = l.length := by
  intro l
  induction l with
  | nil => rfl
  | cons a l ih =>
    cases h : p a <;> simp [List.filter_cons, h] <;> omega

theorem decOf_noinvert (cfg : CliArgs) (filter : List String) (nm : String)
    (h : cfg.invert = false) : decOf cfg filter nm = filter.contains nm := by
  simp [decOf, h]

theorem decOf_invert (cfg : CliArgs) (filter : List String) (nm : String)
    (h : cfg.invert = true) : decOf cfg filter nm = !(filter.contains nm) := by
  simp [decOf, h]

theorem replicate_nil_zipWith_append :
    ∀ (X : List (List String)) (n : Nat), X.length = n →
      List.zipWith (fun a b => a ++ b) (List.replicate n []) X = X := by
  intro X
  induction X with
  | nil => intro n h; simp
  | cons x xs ih =>
    intro n h
    cases n with
    | zero => simp at h
    | succ k =>
      simp only [List.replicate_succ, List.zipWith_cons_cons, List.nil_append]
      rw [ih k (by simpa using h)]

theorem runEngine_rows_outputs (cfg : CliArgs) (filter : List String)
    (m : Nat) (rows : List Row) (htab : cfg.tab = false)
    (hlim : ¬ 0 < cfg.limit)
    (hwf : ∀ row ∈ rows, wfRow cfg.shortName m row) :
    (runEngine cfg filter (rowsS0 rows) (buildOthers m rows)).st.outputs =
      streamCatFrom (1 + m) (selRows cfg filter rows) := by
  rw [runEngine_rows cfg filter m rows hwf hlim]
  show (List.foldl (fun s row => recStepState cfg filter row s)
    (initState (1 + m) cfg.invert) rows).outputs = _
  rw [foldRows_outputs cfg filter m htab rows (initState (1 + m) cfg.invert)
    (fun r hr => (hwf r hr).2.2.2) (by simp [initState])]
  rw [show (initState (1 + m) cfg.invert).outputs =
    List.replicate (1 + m) [] from rfl]
  exact replicate_nil_zipWith_append _ (1 + m)
    (streamCatFrom_length m (selRows cfg filter rows)
      (fun r hr => (hwf r (List.mem_of_mem_filter hr)).2.2.2))

/-! ## Claim C2: atomic per-record emission -/

/-- Counterexample for C2 as stated: in the `-limit 1` run over one
matching record, the included record is emitted with only two of its
four lines (header and sequence) before the limit stop — partial
emission does occur. -/
theorem c2_counterexample :
    (runEngine { limit := 1 } ["a"] ["@a", "S", "+", "Q"] []).st.outputs =
      [["@a", "S"]] ∧
      (runEngine { limit := 1 } ["a"] ["@a", "S", "+", "Q"] []).st.included = 1 ∧
      (runEngine { limit := 1 } ["a"] ["@a", "S", "+", "Q"] []).term =
        RunTerm.limit :=
  ⟨rfl, rfl, rfl⟩

/-- Claim C2 (amended): on well-formed record-aligned input, in a run
that is not cut short by a positive match-limit (and hence ends at
stream-0 end of input), emission is atomic: each stream's output is
exactly the concatenation of the full 4-line records of the included
rows — in particular every output's length is a multiple of 4.  A
match-limit stop mid-record (see the counterexample) or a fatal error
can leave a final partial record. -/
theorem c2_atomic_records (cfg : CliArgs) (filter : List String) (m : Nat)
    (rows : List Row) (htab : cfg.tab = false) (hlim : cfg.limit ≤ 0)
    (hwf : ∀ row ∈ rows, wfRow cfg.shortName m row) :
    (runEngine cfg filter (rowsS0 rows) (buildOthers m rows)).term =
      RunTerm.eof ∧
      (runEngine cfg filter (rowsS0 rows) (buildOthers m rows)).st.outputs =
        streamCatFrom (1 + m) (selRows cfg filter rows) ∧
      ∀ out ∈ (runEngine cfg filter (rowsS0 rows)
        (buildOthers m rows)).st.outputs, out.length % 4 = 0 := by
  have houts := runEngine_rows_outputs cfg filter m rows htab (by omega) hwf
  refine ⟨?_, houts, fun out hout =>
    streamCatFrom_len_mod4 (1 + m) (selRows cfg filter rows) out
      (houts ▸ hout)⟩
  rw [runEngine_rows cfg filter m rows hwf (by omega)]

/-- Witness for C2: a paired-end run with one matching and one
non-matching record; both streams emit exactly the matching record's
four lines. -/
theorem c2_atomic_records_witness :
    (runEngine {} ["a"]
        (rowsS0 [(⟨"@a", "S", "+", "Q"⟩, [⟨"@a", "T", "+", "R"⟩]),
          (⟨"@b", "U", "+", "V"⟩, [⟨"@b", "W", "+", "X"⟩])])
        (buildOthers 1 [(⟨"@a", "S", "+", "Q"⟩, [⟨"@a", "T", "+", "R"⟩]),
          (⟨"@b", "U", "+", "V"⟩, [⟨"@b", "W", "+", "X"⟩])])).term =
      RunTerm.eof ∧
      (runEngine {} ["a"]
        (rowsS0 [(⟨"@a", "S", "+", "Q"⟩, [⟨"@a", "T", "+", "R"⟩]),
          (⟨"@b", "U", "+", "V"⟩, [⟨"@b", "W", "+", "X"⟩])])
        (buildOthers 1 [(⟨"@a", "S", "+", "Q"⟩, [⟨"@a", "T", "+", "R"⟩]),
          (⟨"@b", "U", "+", "V"⟩, [⟨"@b", "W", "+", "X"⟩])])).st.outputs =
        streamCatFrom 2
          (selRows {} ["a"] [(⟨"@a", "S", "+", "Q"⟩, [⟨"@a", "T", "+", "R"⟩]),
            (⟨"@b", "U", "+", "V"⟩, [⟨"@b", "W", "+", "X"⟩])]) := by
  have h := c2_atomic_records {} ["a"] 1
    [(⟨"@a", "S", "+", "Q"⟩, [⟨"@a", "T", "+", "R"⟩]),
      (⟨"@b", "U", "+", "V"⟩, [⟨"@b", "W", "+", "X"⟩])]
    rfl (by decide) (by decide)
  exact ⟨h.1, h.2.1⟩

/-! ## Claim C5: tabular output -/

/-- Claim C5: in tabular mode, on well-formed record-aligned input
with no match-limit, the tabular destination receives exactly one
line per included record — the record's extracted name followed by
every stream's sequence line in stream order, tab-separated — and
the number of lines equals the final included-count. -/
theorem c5_tabular_output (cfg : CliArgs) (filter : List String) (m : Nat)
    (rows : List Row) (htab : cfg.tab = true) (hlim : cfg.limit ≤ 0)
    (hwf : ∀ row ∈ rows, wfRow cfg.shortName m row) :
    (runEngine cfg filter (rowsS0 rows) (buildOthers m rows)).term =
      RunTerm.eof ∧
      (runEngine cfg filter (rowsS0 rows) (buildOthers m rows)).st.tabLines =
        (selRows cfg filter rows).map (rowTabLine cfg.shortName) ∧
      (runEngine cfg filter (rowsS0 rows)
          (buildOthers m rows)).st.tabLines.length =
        (runEngine cfg filter (rowsS0 rows)
          (buildOthers m rows)).st.included := by
  rw [runEngine_rows cfg filter m rows hwf (by omega)]
  have htabs := foldRows_tabLines cfg filter htab rows
    (initState (1 + m) cfg.invert)
  have hinc := foldRows_included cfg filter rows (initState (1 + m) cfg.invert)
  refine ⟨rfl, ?_, ?_⟩
  · rw [htabs]
    simp [initState]
  · rw [htabs, hinc]
    simp [initState]

/-- Witness for C5: a two-stream tabular run over one matching and
one non-matching record. -/
theorem c5_tabular_output_witness :
    (runEngine { tab := true } ["a"]
        (rowsS0 [(⟨"@a", "S", "+", "Q"⟩, [⟨"@a", "T", "+", "R"⟩]),
          (⟨"@b", "U", "+", "V"⟩, [⟨"@b", "W", "+", "X"⟩])])
        (buildOthers 1 [(⟨"@a", "S", "+", "Q"⟩, [⟨"@a", "T", "+", "R"⟩]),
          (⟨"@b", "U", "+", "V"⟩, [⟨"@b", "W", "+", "X"⟩])])).term =
      RunTerm.eof ∧
      (runEngine { tab := true } ["a"]
        (rowsS0 [(⟨"@a", "S", "+", "Q"⟩, [⟨"@a", "T", "+", "R"⟩]),
          (⟨"@b", "U", "+", "V"⟩, [⟨"@b", "W", "+", "X"⟩])])
        (buildOthers 1 [(⟨"@a", "S", "+", "Q"⟩, [⟨"@a", "T", "+", "R"⟩]),
          (⟨"@b", "U", "+", "V"⟩, [⟨"@b", "W", "+", "X"⟩])])).st.tabLines =
        (selRows { tab := true } ["a"]
          [(⟨"@a", "S", "+", "Q"⟩, [⟨"@a", "T", "+", "R"⟩]),
            (⟨"@b", "U", "+", "V"⟩, [⟨"@b", "W", "+", "X"⟩])]).map
          (rowTabLine ({ tab := true } : CliArgs).shortName) := by
  have h := c5_tabular_output { tab := true } ["a"] 1
    [(⟨"@a", "S", "+", "Q"⟩, [⟨"@a", "T", "+", "R"⟩]),
      (⟨"@b", "U", "+", "V"⟩, [⟨"@b", "W", "+", "X"⟩])]
    rfl (by decide) (by decide)
  exact ⟨h.1, h.2.1⟩

/-! ## Claim C7: invert produces the exact complement -/

/-- Claim C7: over the same well-formed input and name list (no
match-limit, per-stream output), the run with invert on emits exactly
the records whose name is not in the NameSet, and the run with invert
off exactly those whose name is; the two selections partition the
records, so every record is output under exactly one of the two
settings. -/
theorem c7_invert_complement (cfg : CliArgs) (filter : List String) (m : Nat)
    (rows : List Row) (htab : cfg.tab = false) (hlim : cfg.limit ≤ 0)
    (hwf : ∀ row ∈ rows, wfRow cfg.shortName m row) :
    (runEngine { cfg with invert := false } filter (rowsS0 rows)
        (buildOthers m rows)).st.outputs =
      streamCatFrom (1 + m)
        (rows.filter
          (fun row => filter.contains (recName cfg.shortName row.1))) ∧
      (runEngine { cfg with invert := true } filter (rowsS0 rows)
          (buildOthers m rows)).st.outputs =
        streamCatFrom (1 + m)
          (rows.filter
            (fun row => !(filter.contains (recName cfg.shortName row.1)))) ∧
      (rows.filter
          (fun row => filter.contains (recName cfg.shortName row.1))).length +
        (rows.filter
          (fun row => !(filter.contains (recName cfg.shortName row.1)))).length =
        rows.length := by
  refine ⟨?_, ?_, filter_length_partition _ rows⟩
  · rw [runEngine_rows_outputs { cfg with invert := false } filter m rows
      htab (show ¬ 0 < cfg.limit by omega) hwf]
    unfold selRows
    rw [List.filter_congr (fun row _ =>
      decOf_noinvert { cfg with invert := false } filter
        (recName cfg.shortName row.1) rfl)]
  · rw [runEngine_rows_outputs { cfg with invert := true } filter m rows
      htab (show ¬ 0 < cfg.limit by omega) hwf]
    unfold selRows
    rw [List.filter_congr (fun row _ =>
      decOf_invert { cfg with invert := true } filter
        (recName cfg.shortName row.1) rfl)]

/-- Witness for C7: the two runs over a two-record input with the
first name listed: the plain run emits record `a`, the inverted run
emits record `b`, and the selections partition the input. -/
theorem c7_invert_complement_witness :
    (runEngine { invert := false } ["a"]
        (rowsS0 [(⟨"@a", "S", "+", "Q"⟩, []), (⟨"@b", "U", "+", "V"⟩, [])])
        (buildOthers 0
          [(⟨"@a", "S", "+", "Q"⟩, []), (⟨"@b", "U", "+", "V"⟩, [])])).st.outputs =
      streamCatFrom 1
        ([(⟨"@a", "S", "+", "Q"⟩, []), (⟨"@b", "U", "+", "V"⟩, [])].filter
          (fun row => (["a"] : List String).contains
            (recName ({} : CliArgs).shortName row.1))) ∧
      (runEngine { invert := true } ["a"]
        (rowsS0 [(⟨"@a", "S", "+", "Q"⟩, []), (⟨"@b", "U", "+", "V"⟩, [])])
        (buildOthers 0
          [(⟨"@a", "S", "+", "Q"⟩, []), (⟨"@b", "U", "+", "V"⟩, [])])).st.outputs =
        streamCatFrom 1
          ([(⟨"@a", "S", "+", "Q"⟩, []), (⟨"@b", "U", "+", "V"⟩, [])].filter
            (fun row => !((["a"] : List String).contains
              (recName ({} : CliArgs).shortName row.1)))) := by
  have h := c7_invert_complement {} ["a"] 0
    [(⟨"@a", "S", "+", "Q"⟩, []), (⟨"@b", "U", "+", "V"⟩, [])]
    rfl (by decide) (by decide)
  exact ⟨h.1, h.2.1⟩

/-! ## Claim C3: single-stream membership filtering -/

theorem streamCatFrom_single :
    ∀ recs : List FqRec,
      streamCatFrom 1 (recs.map (fun r => (r, ([] : List FqRec)))) =
        [(recs.map recLines).flatten] := by
  intro recs
  induction recs with
  | nil => rfl
  | cons r recs ih => simp [streamCatFrom, ih]

theorem buildOthers_zero (recs : List FqRec) :
    buildOthers 0 (recs.map (fun r => (r, ([] : List FqRec)))) = [] := by
  cases recs <;> rfl

theorem rowsS0_map_single (recs : List FqRec) :
    rowsS0 (recs.map (fun r => (r, ([] : List FqRec)))) =
      (recs.map recLines).flatten := by
  simp [rowsS0, List.map_map]
  rfl

/-- Claim C3: in a single-stream pass with invert off and no limit,
on well-formed records, the output is exactly the concatenation of
the records whose (possibly short-named) header name is in the
NameSet — record for record, presence in the output coincides with
membership of the name. -/
theorem c3_single_stream_membership (cfg : CliArgs) (filter : List String)
    (records : List FqRec) (hinv : cfg.invert = false)
    (htab : cfg.tab = false) (hlim : cfg.limit ≤ 0)
    (hwf : ∀ r ∈ records, hasSentinel r.hdr = true ∧
      (cfg.shortName = true → (firstField (strTail r.hdr)).isSome = true)) :
    (runEngine cfg filter ((records.map recLines).flatten) []).term =
      RunTerm.eof ∧
      (runEngine cfg filter ((records.map recLines).flatten) []).st.outputs =
        [((records.filter
          (fun r => filter.contains (recName cfg.shortName r))).map
            recLines).flatten] := by
  have hwf' : ∀ row ∈ records.map (fun r => (r, ([] : List FqRec))),
      wfRow cfg.shortName 0 row := by
    intro row hrow
    obtain ⟨r, hr, hre⟩ := List.mem_map.mp hrow
    subst hre
    exact ⟨(hwf r hr).1, (hwf r hr).2, by simp, rfl⟩
  have hEng : runEngine cfg filter ((records.map recLines).flatten) [] =
      runEngine cfg filter
        (rowsS0 (records.map (fun r => (r, ([] : List FqRec)))))
        (buildOthers 0 (records.map (fun r => (r, ([] : List FqRec))))) := by
    rw [rowsS0_map_single records, buildOthers_zero records]
  rw [hEng]
  constructor
  · rw [runEngine_rows cfg filter 0 (records.map (fun r => (r, [])))
      hwf' (by omega)]
  · rw [runEngine_rows_outputs cfg filter 0 (records.map (fun r => (r, [])))
      htab (by omega) hwf']
    unfold selRows
    rw [List.filter_congr (fun row _ =>
      decOf_noinvert cfg filter (recName cfg.shortName row.1) hinv)]
    rw [List.filter_map]
    rw [show ((fun row : Row =>
        filter.contains (recName cfg.shortName row.1)) ∘
      (fun r => (r, ([] : List FqRec)))) =
        (fun r => filter.contains (recName cfg.shortName r)) from rfl]
    exact streamCatFrom_single
      (records.filter (fun r => filter.contains (recName cfg.shortName r)))

/-- Witness for C3: two records with only the first name listed; the
output is exactly the first record's four lines. -/
theorem c3_single_stream_membership_witness :
    (runEngine {} ["a"]
        (([⟨"@a", "S", "+", "Q"⟩, ⟨"@b", "U", "+", "V"⟩].map
          recLines).flatten) []).term = RunTerm.eof ∧
      (runEngine {} ["a"]
        (([⟨"@a", "S", "+", "Q"⟩, ⟨"@b", "U", "+", "V"⟩].map
          recLines).flatten) []).st.outputs =
        [(([⟨"@a", "S", "+", "Q"⟩, ⟨"@b", "U", "+", "V"⟩].filter
          (fun r => (["a"] : List String).contains
            (recName ({} : CliArgs).shortName r))).map recLines).flatten] :=
  c3_single_stream_membership {} ["a"]
    [⟨"@a", "S", "+", "Q"⟩, ⟨"@b", "U", "+", "V"⟩] rfl rfl (by decide)
    (by decide)
